import Mathlib

/-!
# gx-go importer: shallow embedding of `importer.go`

The development embeds the functions of `importer.go` that decide how Go import
paths are classified, grouped and recursively published:

* `pathIsNotStdlib`        (importer.go, lines 36-43)
* `getBaseDVCS`            (importer.go, lines 87-98)
* `GxPublishGoPackage`     (importer.go, lines 100-196)
* `depsToVendorForPackage` (importer.go, lines 198-242)
* `skipDir`, `rewriteImports`, `GoGet` (importer.go, lines 244-280)

Conventions of the embedding.

* A Go `string` is a Lean `String`; `strings.Split` and `strings.Join` are only used
  with the one-byte separators `"/"` and `"."`, so the separator of `stringsSplit` is a
  `Char` (a one-byte separator never occurs inside a multi-byte UTF-8 sequence).
* A run-time panic (index out of range) is `none` for the pure function `getBaseDVCS`
  and `Outcome.panic` for the engine.
* Everything outside the file (the `go` tool, `go/build`, the file system, the gx
  package manager, the import rewriter, the prompt) is a field of `Env`, acting on an
  abstract world `W`.
* The engine state carries a chronological `trace` of the collaborator invocations the
  engine makes; the trace is observation only and never read by the code.
* Recursion that Go leaves unbounded takes a fuel argument; `none` means that the
  fuel ran out.
* `Log` calls only print and are omitted.
-/

namespace GxGo

/-! ## Strings -/

/-- Split a character list at every `sep`: the first piece and the remaining pieces.
There is always a first piece, as with `strings.Split` for a non-empty separator. -/
def splitChars (sep : Char) : List Char → List Char × List (List Char)
  | [] => ([], [])
  | c :: cs =>
    if c = sep then ([], (splitChars sep cs).1 :: (splitChars sep cs).2)
    else (c :: (splitChars sep cs).1, (splitChars sep cs).2)

/-- Concatenate pieces with `sep` between consecutive ones. -/
def joinChars (sep : List Char) : List (List Char) → List Char
  | [] => []
  | [p] => p
  | p :: q :: ps => p ++ sep ++ joinChars sep (q :: ps)

/-- Go `strings.Split(s, sep)` for a one-character separator. -/
def stringsSplit (s : String) (sep : Char) : List String :=
  String.mk (splitChars sep s.data).1 :: (splitChars sep s.data).2.map String.mk

/-- Go `strings.Join(parts, sep)`. -/
def stringsJoin (parts : List String) (sep : String) : String :=
  String.mk (joinChars sep.data (parts.map String.data))

/-- Go `strings.HasPrefix(s, pre)`. -/
def stringsHasPrefix (s pre : String) : Bool :=
  pre.data.isPrefixOf s.data

/-- Go `strings.HasSuffix(s, suf)`. -/
def stringsHasSuffix (s suf : String) : Bool :=
  suf.data.reverse.isPrefixOf s.data.reverse

/-- Does `sub` occur in the character list at some position. -/
def containsChars (sub : List Char) : List Char → Bool
  | [] => sub.isPrefixOf []
  | c :: cs => sub.isPrefixOf (c :: cs) || containsChars sub cs

/-- Go `strings.Contains(s, sub)`. -/
def stringsContains (s sub : String) : Bool :=
  containsChars sub.data s.data

/-! ## Pure functions of `importer.go` -/

/-- Go `pathIsNotStdlib` (lines 36-43): the first `/`-piece of the path splits on `.` into
more than one piece. -/
def pathIsNotStdlib (path : String) : Bool :=
  let first := String.mk (splitChars '/' path.data).1
  if (stringsSplit first '.').length > 1 then true else false

/-- Go `getBaseDVCS` (lines 87-98). `parts[0]` always exists; `parts[1]` is only read when
`parts[0] == "golang.org"` (short-circuit `&&`) and panics (`none`) when the path has a
single piece. The truncation is `parts[:3]` whatever `depth` is. -/
def getBaseDVCS (path : String) : Option String := do
  let parts := stringsSplit path '/'
  let p0 ← parts[0]?
  let special ←
    if p0 = "golang.org" then (do let p1 ← parts[1]?; pure (decide (p1 = "x")))
    else pure false
  let depth := if special then 4 else 3
  if parts.length > depth then
    pure (stringsJoin (parts.take 3) "/")
  else
    pure path

/-- Go `skipDir` (lines 244-251). -/
def skipDir (name : String) : Bool :=
  if name = "Godeps" ∨ name = "vendor" ∨ name = ".git" then true else false

/-- Reference definition of `GroupRoot`, written from the specification: the depth is 4
when the first two segments are `golang.org` and `x`, and 3 otherwise; a path with more
segments than the depth is cut to its first `depth` segments, any other path is
returned unchanged. -/
def groupRootSpec (path : String) : String :=
  let parts := stringsSplit path '/'
  let depth := if parts.take 2 = ["golang.org", "x"] then 4 else 3
  if parts.length > depth then stringsJoin (parts.take depth) "/" else path

/-! ## Data model -/

/-- Used fields of `gx.Dependency`: the published identity of a package. -/
structure Dependency where
  Hash : String
  Name : String
  Version : String
  deriving DecidableEq, Repr

/-- Used fields of the gx package manifest. -/
structure Package where
  Name : String
  Version : String
  Dependencies : List Dependency
  deriving DecidableEq, Repr

/-- A Go `error` value, with the two distinctions the code makes: `os.IsNotExist` and
the dynamic type `*build.NoGoError`. -/
inductive GoError where
  | notExist (msg : String)
  | noGo (msg : String)
  | other (msg : String)
  deriving DecidableEq, Repr

/-- The method `Error()` of a Go error. -/
def GoError.Error : GoError → String
  | .notExist msg => msg
  | .noGo msg => msg
  | .other msg => msg

/-- Go `os.IsNotExist(err)`. -/
def GoError.IsNotExist : GoError → Bool
  | .notExist _ => true
  | _ => false

/-- The type assertion `err.(*build.NoGoError)` succeeds. -/
def GoError.isNoGoError : GoError → Bool
  | .noGo _ => true
  | _ => false

/-- Result of a call that may return a value, return an error, or panic. -/
inductive Outcome (α : Type) where
  | ok (a : α)
  | error (e : GoError)
  | panic
  deriving DecidableEq, Repr

deriving instance DecidableEq for Except

/-- One collaborator invocation made by the engine. `publishPackage` and
`depsToVendor` are labelled with the grouped import path they are made for, and
`depsToVendor` records what the walker returned. -/
inductive Event where
  | goGet (path : String)
  | loadPackageFile (file : String)
  | prompt (msg dflt : String)
  | initPkg (dir name lang : String)
  | depsToVendor (imppath : String) (res : Except GoError (List String))
  | savePackageFile (pkg : Package) (file : String)
  | filepathAbs (dir : String)
  | rewriteImports (dir : String)
  | publishPackage (imppath dir : String) (pkg : Package)
  deriving DecidableEq, Repr

/-- The `Importer` struct (lines 45-51); the package manager `pm` is part of `Env`. -/
structure Importer where
  pkgs : List (String × Dependency)
  gopath : String
  rewrite : Bool
  yesall : Bool
  deriving DecidableEq, Repr

/-- Engine state: the importer, the outside world and the observation trace. -/
structure State (W : Type) where
  i : Importer
  world : W
  trace : List Event
  deriving DecidableEq, Repr

/-- Everything `importer.go` calls but does not define. -/
structure Env (W : Type) where
  /-- The constant `gx.PkgFileName`. -/
  PkgFileName : String
  /-- Go `path.Join`. -/
  pathJoin : List String → String
  /-- Go `filepath.Join`. -/
  filepathJoin : List String → String
  /-- Go `filepath.Abs`. -/
  filepathAbs : String → W → Except GoError String
  /-- Go `exec.Command("go", "get", path).CombinedOutput()`: output and error. -/
  execGoGet : String → W → (String × Option GoError) × W
  /-- Go `LoadPackageFile` of the main package. -/
  LoadPackageFile : String → W → Except GoError Package × W
  /-- Go `prompt` of the main package. -/
  prompt : String → String → W → Except GoError String × W
  /-- Go `gx.PM.InitPkg`. -/
  InitPkg : String → String → String → W → Option GoError × W
  /-- Go `build.Import(path, "", 0)`: the `Imports` of the package, or an error. -/
  buildImport : String → W → Except GoError (List String)
  /-- Go `ioutil.ReadDir`: name and `IsDir()` of every entry. -/
  ReadDir : String → W → Except GoError (List (String × Bool))
  /-- Iteration order of `range` over a Go map with the given keys. -/
  mapRange : List String → List String
  /-- Go `gx.SavePackageFile`. -/
  SavePackageFile : Package → String → W → Option GoError × W
  /-- Go `rw.RewriteImports`. -/
  RewriteImports : String → (String → String) → (String → Bool) → W → Option GoError × W
  /-- Go `gx.PM.PublishPackage`. -/
  PublishPackage : String → Package → W → Except GoError String × W

/-- Map read `m[key]` with the `ok` flag. -/
def cacheGet : List (String × Dependency) → String → Option Dependency
  | [], _ => none
  | (k, d) :: m, key => if k = key then some d else cacheGet m key

/-- Map write `m[key] = d`: overwrite the entry of `key`, or add one. -/
def cacheSet : List (String × Dependency) → String → Dependency → List (String × Dependency)
  | [], key, d => [(key, d)]
  | (k, d0) :: m, key, d =>
    if k = key then (k, d) :: m else (k, d0) :: cacheSet m key d

/-- Set insertion `rdeps[x] = struct{}{}` on the key list of a Go map used as a set. -/
def setInsert (rdeps : List String) (x : String) : List String :=
  if x ∈ rdeps then rdeps else rdeps ++ [x]

/-- Append an event to the trace. -/
def State.log {W : Type} (s : State W) (ev : Event) : State W :=
  { s with trace := s.trace ++ [ev] }

/-- Replace the world. -/
def State.setWorld {W : Type} (s : State W) (w : W) : State W :=
  { s with world := w }

/-! ## The dependency walker -/

/-- The loop over `gopkg.Imports` (lines 209-213). -/
def directDeps (path : String) (imports : List String) : List String :=
  imports.foldl
    (fun rdeps child =>
      if pathIsNotStdlib child && !stringsHasPrefix child path then setInsert rdeps child
      else rdeps)
    []

/-- The loop over the directory entries (lines 221-234); `walk` is the recursive call. -/
def walkDirents {W : Type} (walk : String → Option (Except GoError (List String)))
    (env : Env W) (path : String) :
    List (String × Bool) → List String → Option (Except GoError (List String))
  | [], rdeps => some (.ok rdeps)
  | e :: es, rdeps =>
    if !e.2 || skipDir e.1 then walkDirents walk env path es rdeps
    else
      match walk (env.filepathJoin [path, e.1]) with
      | none => none
      | some (.error err) => some (.error err)
      | some (.ok out) => walkDirents walk env path es (out.foldl setInsert rdeps)

/-- Go `depsToVendorForPackage` (lines 198-242). -/
def depsToVendorForPackage {W : Type} :
    Nat → Env W → String → W → String → Option (Except GoError (List String))
  | 0, _, _, _, _ => none
  | n + 1, env, gopath, w, path =>
    let direct : Except GoError (List String) :=
      match env.buildImport path w with
      | .error err => if err.isNoGoError then .ok [] else .error err
      | .ok imports => .ok (directDeps path imports)
    match direct with
    | .error err => some (.error err)
    | .ok rdeps =>
      match env.ReadDir (env.filepathJoin [gopath, "src", path]) w with
      | .error err => some (.error err)
      | .ok dirents =>
        match walkDirents (depsToVendorForPackage n env gopath w) env path dirents rdeps with
        | none => none
        | some (.error err) => some (.error err)
        | some (.ok all) => some (.ok (env.mapRange all))

/-! ## The publication engine -/

/-- Go `GoGet` (lines 274-280). -/
def GoGet {W : Type} (env : Env W) (path : String) (s : State W) :
    Option GoError × State W :=
  match env.execGoGet path s.world with
  | ((out, some err), w) =>
    (some (.other ("go get failed: " ++ out ++ " - " ++ err.Error)),
      (s.log (.goGet path)).setWorld w)
  | ((_, none), w) => (none, (s.log (.goGet path)).setWorld w)

/-- The closure `filter` of `rewriteImports` (lines 255-259). -/
def rewriteFilter (p : String) : Bool :=
  !stringsHasPrefix p "vendor" && !stringsHasPrefix p ".git" && stringsHasSuffix p ".go"

/-- The closure `rwf` of `rewriteImports` (lines 261-268). -/
def rewriteFn (pkgs : List (String × Dependency)) (inp : String) : String :=
  match cacheGet pkgs inp with
  | none => inp
  | some dep => dep.Hash ++ "/" ++ dep.Name

/-- Go `Importer.rewriteImports` (lines 253-271). -/
def rewriteImports {W : Type} (env : Env W) (pkgpath : String) (s : State W) :
    Option GoError × State W :=
  match env.RewriteImports pkgpath (rewriteFn s.i.pkgs) rewriteFilter s.world with
  | (err, w) => (err, (s.log (.rewriteImports pkgpath)).setWorld w)

/-- Lines 125-133 of `GxPublishGoPackage`: ask for the package name unless `yesall`. -/
def promptName {W : Type} (env : Env W) (imppath pkgname : String) (s : State W) :
    Outcome String × State W :=
  if !s.i.yesall then
    match env.prompt ("enter name for import \x27" ++ imppath ++ "\x27") pkgname s.world with
    | (.error err, w) =>
      (.error err,
        (s.log (.prompt ("enter name for import \x27" ++ imppath ++ "\x27") pkgname)).setWorld w)
    | (.ok nname, w) =>
      (.ok nname,
        (s.log (.prompt ("enter name for import \x27" ++ imppath ++ "\x27") pkgname)).setWorld w)
  else (.ok pkgname, s)

/-- Lines 122-143 of `GxPublishGoPackage`: initialise the directory as a gx package
named after the last path piece (or the prompted name) and load the new manifest. -/
def initPackage {W : Type} (env : Env W) (imppath pkgpath pkgFilePath : String)
    (s : State W) : Outcome Package × State W :=
  match promptName env imppath ((stringsSplit imppath '/').getLast (List.cons_ne_nil _ _)) s with
  | (.error err, s2) => (.error err, s2)
  | (.panic, s2) => (.panic, s2)
  | (.ok pkgname, s2) =>
    match env.InitPkg pkgpath pkgname "go" s2.world with
    | (some err, w) => (.error err, (s2.log (.initPkg pkgpath pkgname "go")).setWorld w)
    | (none, w) =>
      match env.LoadPackageFile pkgFilePath w with
      | (.error err, w1) =>
        (.error err,
          (((s2.log (.initPkg pkgpath pkgname "go")).setWorld w).log
            (.loadPackageFile pkgFilePath)).setWorld w1)
      | (.ok pkg, w1) =>
        (.ok pkg,
          (((s2.log (.initPkg pkgpath pkgname "go")).setWorld w).log
            (.loadPackageFile pkgFilePath)).setWorld w1)

/-- Lines 116-144 of `GxPublishGoPackage`: load the manifest, or, when the file does not
exist, initialise the package and load again. -/
def loadOrInit {W : Type} (env : Env W) (imppath pkgpath pkgFilePath : String)
    (s : State W) : Outcome Package × State W :=
  match env.LoadPackageFile pkgFilePath s.world with
  | (.ok pkg, w) => (.ok pkg, (s.log (.loadPackageFile pkgFilePath)).setWorld w)
  | (.error err, w) =>
    if !err.IsNotExist then (.error err, (s.log (.loadPackageFile pkgFilePath)).setWorld w)
    else initPackage env imppath pkgpath pkgFilePath
      ((s.log (.loadPackageFile pkgFilePath)).setWorld w)

/-- The loop over `depsToVendor` (lines 152-163); `publish` is the recursive call. -/
def publishDeps {W : Type} (publish : State W → String → Option (Outcome Dependency × State W))
    (imppath : String) :
    List String → Package → State W → Option (Outcome Package × State W)
  | [], pkg, s => some (.ok pkg, s)
  | child :: rest, pkg, s =>
    if stringsHasPrefix child imppath then publishDeps publish imppath rest pkg s
    else
      match publish s child with
      | none => none
      | some (.error err, s1) => some (.error err, s1)
      | some (.panic, s1) => some (.panic, s1)
      | some (.ok childdep, s1) =>
        publishDeps publish imppath rest
          { pkg with Dependencies := pkg.Dependencies ++ [childdep] } s1

/-- Lines 170-180 of `GxPublishGoPackage`: rewrite the imports when enabled. -/
def rewriteStep {W : Type} (env : Env W) (pkgpath : String) (s : State W) :
    Option GoError × State W :=
  if s.i.rewrite then
    match env.filepathAbs pkgpath s.world with
    | .error err => (some err, s.log (.filepathAbs pkgpath))
    | .ok fullpkgpath => rewriteImports env fullpkgpath (s.log (.filepathAbs pkgpath))
  else (none, s)

/-- Lines 182-195 of `GxPublishGoPackage`: publish and record the handle in `pkgs`. -/
def publishStep {W : Type} (env : Env W) (imppath pkgpath : String) (pkg : Package)
    (s : State W) : Outcome Dependency × State W :=
  match env.PublishPackage pkgpath pkg s.world with
  | (.error err, w) =>
    (.error err, (s.log (.publishPackage imppath pkgpath pkg)).setWorld w)
  | (.ok hash, w) =>
    (.ok { Hash := hash, Name := pkg.Name, Version := pkg.Version },
      { i := { s.i with
               pkgs := cacheSet s.i.pkgs imppath
                 { Hash := hash, Name := pkg.Name, Version := pkg.Version } },
        world := w,
        trace := s.trace ++ [.publishPackage imppath pkgpath pkg] })

/-- Lines 165-195 of `GxPublishGoPackage`: save the manifest, rewrite when enabled,
publish, record the handle in `pkgs`. -/
def finishPublish {W : Type} (env : Env W) (imppath pkgpath pkgFilePath : String)
    (pkg : Package) (s : State W) : Outcome Dependency × State W :=
  match env.SavePackageFile pkg pkgFilePath s.world with
  | (some err, w) => (.error err, (s.log (.savePackageFile pkg pkgFilePath)).setWorld w)
  | (none, w) =>
    match rewriteStep env pkgpath ((s.log (.savePackageFile pkg pkgFilePath)).setWorld w) with
    | (some err, s2) => (.error err, s2)
    | (none, s2) => publishStep env imppath pkgpath pkg s2

/-- Lines 114-195 of `GxPublishGoPackage`, after the fetch: load or initialise the
manifest, walk, publish the children, finish. -/
def publishTail {W : Type} (publish : State W → String → Option (Outcome Dependency × State W))
    (walk : String → W → String → Option (Except GoError (List String)))
    (env : Env W) (s1 : State W) (imppath : String) :
    Option (Outcome Dependency × State W) :=
  let pkgpath := env.pathJoin [s1.i.gopath, "src", imppath]
  let pkgFilePath := env.pathJoin [pkgpath, env.PkgFileName]
  match loadOrInit env imppath pkgpath pkgFilePath s1 with
  | (.error err, s2) => some (.error err, s2)
  | (.panic, s2) => some (.panic, s2)
  | (.ok pkg, s2) =>
    match walk s2.i.gopath s2.world imppath with
    | none => none
    | some (.error err) => some (.error err, s2.log (.depsToVendor imppath (.error err)))
    | some (.ok depsToVendor) =>
      match publishDeps publish imppath depsToVendor pkg
          (s2.log (.depsToVendor imppath (.ok depsToVendor))) with
      | none => none
      | some (.error err, s3) => some (.error err, s3)
      | some (.panic, s3) => some (.panic, s3)
      | some (.ok pkg1, s3) => some (finishPublish env imppath pkgpath pkgFilePath pkg1 s3)

/-- Body of `GxPublishGoPackage` (lines 100-196) with the recursive call `publish` and
the walker `walk` as arguments. -/
def publishBody {W : Type} (publish : State W → String → Option (Outcome Dependency × State W))
    (walk : String → W → String → Option (Except GoError (List String)))
    (env : Env W) (s : State W) (imppath0 : String) :
    Option (Outcome Dependency × State W) :=
  match getBaseDVCS imppath0 with
  | none => some (.panic, s)
  | some imppath =>
    match cacheGet s.i.pkgs imppath with
    | some d => some (.ok d, s)
    | none =>
      match GoGet env imppath s with
      | (some err, s1) =>
        if !stringsContains err.Error "no buildable Go source files" then
          some (.error err, s1)
        else publishTail publish walk env s1 imppath
      | (none, s1) => publishTail publish walk env s1 imppath

/-- Go `Importer.GxPublishGoPackage` (lines 100-196). -/
def GxPublishGoPackage {W : Type} (env : Env W) :
    Nat → State W → String → Option (Outcome Dependency × State W)
  | 0, _, _ => none
  | n + 1, s, imppath =>
    publishBody (GxPublishGoPackage env n) (depsToVendorForPackage n env) env s imppath

/-! ## Specification-side definitions and example environments -/

/-- Does the event record a backend publication made for grouped root `k`. -/
def isPublishOf (k : String) : Event → Bool
  | .publishPackage r _ _ => decide (r = k)
  | _ => false

/-- Number of backend publications made for grouped root `k` in a trace. -/
def publishCount (k : String) (t : List Event) : Nat :=
  t.countP (isPublishOf k)

/-- The step from `s` to `t` changes neither the importer nor the number of backend
publications of any root, and keeps every event of the trace. -/
def Quiet {W : Type} (s t : State W) : Prop :=
  t.i = s.i ∧ (∀ k, publishCount k t.trace = publishCount k s.trace) ∧
    ∀ ev, ev ∈ s.trace → ev ∈ t.trace

/-- Every event in the trace of `s` is in the trace of `t`. -/
def TraceSub {W : Type} (s t : State W) : Prop :=
  ∀ ev, ev ∈ s.trace → ev ∈ t.trace

/-- Two walker results give the same dependency set: both are lists with the same
members, in whatever order, or both are errors. -/
def sameWalk : Except GoError (List String) → Except GoError (List String) → Bool
  | .ok l1, .ok l2 => l1.all (fun x => decide (x ∈ l2)) && l2.all (fun x => decide (x ∈ l1))
  | .error _, .error _ => true
  | _, _ => false

/-- Two events record walker invocations for the same grouped path that did not give the
same dependency set. -/
def walkConflict : Event → Event → Bool
  | .depsToVendor r1 res1, .depsToVendor r2 res2 => decide (r1 = r2) && !sameWalk res1 res2
  | _, _ => false

/-- The walker returned the same dependency set for a given grouped path each time it was
invoked in the trace. -/
@[reducible] def WalkerStable (tr : List Event) : Prop :=
  ∀ e1 ∈ tr, ∀ e2 ∈ tr, walkConflict e1 e2 = false

/-- Every walker result recorded in the trace gives the dependency set of `walkOf`. -/
def WalkerAgrees (walkOf : String → Except GoError (List String)) (tr : List Event) : Prop :=
  ∀ r res, Event.depsToVendor r res ∈ tr → sameWalk res (walkOf r) = true

/-- Every entry of the cache of `s` is still there, unchanged, in `t`. -/
def CacheLe {W : Type} (s t : State W) : Prop :=
  ∀ k d, cacheGet s.i.pkgs k = some d → cacheGet t.i.pkgs k = some d

/-- Handles returned by the recursive publication of each non-skipped child, in the
order of the list, with the state after the last child; `none` when a child does not
return a handle. -/
def childHandles {W : Type} (publish : State W → String → Option (Outcome Dependency × State W))
    (imppath : String) : List String → State W → Option (List Dependency × State W)
  | [], s => some ([], s)
  | child :: rest, s =>
    if stringsHasPrefix child imppath then childHandles publish imppath rest s
    else
      match publish s child with
      | some (.ok d, s1) =>
        match childHandles publish imppath rest s1 with
        | some (hs, t) => some (d :: hs, t)
        | none => none
      | _ => none

/-- Publish every path of the list in turn and append each returned handle to the
manifest, stopping at the first failure. -/
def publishEach {W : Type} (publish : State W → String → Option (Outcome Dependency × State W)) :
    List String → Package → State W → Option (Outcome Package × State W)
  | [], pkg, s => some (.ok pkg, s)
  | child :: rest, pkg, s =>
    match publish s child with
    | none => none
    | some (.error err, s1) => some (.error err, s1)
    | some (.panic, s1) => some (.panic, s1)
    | some (.ok childdep, s1) =>
      publishEach publish rest { pkg with Dependencies := pkg.Dependencies ++ [childdep] } s1

/-- Sub-path relation of the specification: `child` is `root` itself or `root` followed
by `/` and further segments. -/
def isSubPath (child root : String) : Bool :=
  decide (child = root) || stringsHasPrefix child (root ++ "/")

/-- Directory of grouped path `r` below `$GOPATH/src` (line 114). -/
def pkgDir {W : Type} (env : Env W) (s : State W) (r : String) : String :=
  env.pathJoin [s.i.gopath, "src", r]

/-- Manifest file of grouped path `r` (line 115). -/
def pkgFile {W : Type} (env : Env W) (s : State W) (r : String) : String :=
  env.pathJoin [pkgDir env s r, env.PkgFileName]

/-- A stateless example environment: `imports` gives the imports of each package,
`dirs` the entries of each directory, every directory holds a manifest without
dependencies, and the backend fails exactly on the directories selected by `failing`. -/
def exampleEnv (imports : String → List String) (dirs : String → List (String × Bool))
    (failing : String → Bool) : Env Unit where
  PkgFileName := "package.json"
  pathJoin := fun l => stringsJoin l "/"
  filepathJoin := fun l => stringsJoin l "/"
  filepathAbs := fun p _ => .ok p
  execGoGet := fun _ w => (("", none), w)
  LoadPackageFile := fun f w => (.ok { Name := f, Version := "1.0.0", Dependencies := [] }, w)
  prompt := fun _ d w => (.ok d, w)
  InitPkg := fun _ _ _ w => (none, w)
  buildImport := fun p _ => .ok (imports p)
  ReadDir := fun p _ => .ok (dirs p)
  mapRange := id
  SavePackageFile := fun _ _ w => (none, w)
  RewriteImports := fun _ _ _ w => (none, w)
  PublishPackage := fun dir _ w =>
    if failing dir then (.error (.other "publish failed"), w) else (.ok ("Qm:" ++ dir), w)

/-- Start of a run: empty cache, batch mode, no rewriting, empty trace. -/
def startState : State Unit :=
  { i := { pkgs := [], gopath := "/go", rewrite := false, yesall := true },
    world := (), trace := [] }

/-- Imports of the example run: `example.org/foo` imports `example.org/bar` and `fmt`. -/
def fooImports (p : String) : List String :=
  if p = "example.org/foo" then ["example.org/bar", "fmt"] else []

/-- Grouped path `z2` is the group of a child that the loop of `z` does not skip, for the
walker result `walkOf z`. -/
def Edge (walkOf : String → Except GoError (List String)) (z z2 : String) : Prop :=
  ∃ l ch, walkOf z = .ok l ∧ ch ∈ l ∧ stringsHasPrefix ch z = false ∧ getBaseDVCS ch = some z2

/-- A path of edges from a grouped path to `k` through grouped paths satisfying `miss`. -/
inductive Chain (walkOf : String → Except GoError (List String)) (miss : String → Prop)
    (k : String) : String → Prop where
  | here : miss k → Chain walkOf miss k k
  | step (z z2 : String) : miss z → Edge walkOf z z2 → Chain walkOf miss k z2 →
      Chain walkOf miss k z

/-- Run invariant: no grouped path has been published twice, and a grouped path absent
from the cache has not been published at all. -/
def OncePublished {W : Type} (s : State W) : Prop :=
  ∀ k, publishCount k s.trace ≤ 1 ∧ (cacheGet s.i.pkgs k = none → publishCount k s.trace = 0)

/-- The states reached from `s` by a sequence of successful top-level calls. -/
inductive RunOk {W : Type} (env : Env W) (s : State W) : State W → Prop where
  | start : RunOk env s s
  | call (t u : State W) (n : Nat) (x : String) (d : Dependency) :
      RunOk env s t → GxPublishGoPackage env n t x = some (.ok d, u) → RunOk env s u

/-- The directories the walker visits from `root`: `root` itself and, below a visited
directory, every entry that is a directory and is not excluded by `skipDir`. -/
inductive Visited {W : Type} (env : Env W) (gopath : String) (w : W) (root : String) :
    String → Prop where
  | root : Visited env gopath w root root
  | sub (d name : String) (ents : List (String × Bool)) :
      Visited env gopath w root d →
      env.ReadDir (env.filepathJoin [gopath, "src", d]) w = .ok ents →
      (name, true) ∈ ents → skipDir name = false →
      Visited env gopath w root (env.filepathJoin [d, name])

/-- The example run: only `example.org/foo` has imports, no directory has entries, the
backend never fails. -/
def fooEnv : Env Unit :=
  exampleEnv fooImports (fun _ => []) (fun _ => false)

/-- Imports of a diamond: `a` imports `b` and `c`, both import `d`. -/
def diamondImports (p : String) : List String :=
  if p = "example.org/a" then ["example.org/b", "example.org/c"]
  else if p = "example.org/b" then ["example.org/d"]
  else if p = "example.org/c" then ["example.org/d"]
  else []

/-- The diamond environment. -/
def diamondEnv : Env Unit :=
  exampleEnv diamondImports (fun _ => []) (fun _ => false)

/-- Handle the example backend returns for the package in `/go/src/<path>`. -/
def handleOf (path : String) : Dependency :=
  { Hash := "Qm:/go/src/" ++ path, Name := "/go/src/" ++ path ++ "/package.json",
    Version := "1.0.0" }

/-- Manifest of the example package `path` with the given dependencies. -/
def manifestOf (path : String) (deps : List Dependency) : Package :=
  { Name := "/go/src/" ++ path ++ "/package.json", Version := "1.0.0", Dependencies := deps }

/-- State left by publishing `example.org/a` in the diamond environment. -/
def diamondFinal : State Unit :=
  match GxPublishGoPackage diamondEnv 4 startState "example.org/a" with
  | some (_, t) => t
  | none => startState

/-- As `fooEnv`, but the backend fails for `example.org/bar`. -/
def failEnv : Env Unit :=
  exampleEnv fooImports (fun _ => []) (fun dir => decide (dir = "/go/src/example.org/bar"))

/-- Package `github.com/a/b` whose subdirectory `cmd` imports the package itself and its
sub-package `github.com/a/b/util`. -/
def selfImportEnv : Env Unit :=
  exampleEnv
    (fun p => if p = "github.com/a/b/cmd" then ["github.com/a/b", "github.com/a/b/util"] else [])
    (fun dir => if dir = "/go/src/github.com/a/b" then [("cmd", true)] else [])
    (fun _ => false)

/-- Package `github.com/a/b` whose subdirectory `cmd` imports the other repository
`github.com/a/bc`. -/
def siblingRepoEnv : Env Unit :=
  exampleEnv
    (fun p => if p = "github.com/a/b/cmd" then ["github.com/a/bc"] else [])
    (fun dir => if dir = "/go/src/github.com/a/b" then [("cmd", true)] else [])
    (fun _ => false)

/-- The diamond in a world that records the fetched import paths: `build.Import` finds a
package only after `go get` has fetched it, so the walker depends on the world. -/
def fetchDiamondEnv : Env (List String) where
  PkgFileName := "package.json"
  pathJoin := fun l => stringsJoin l "/"
  filepathJoin := fun l => stringsJoin l "/"
  filepathAbs := fun p _ => .ok p
  execGoGet := fun p w => (("", none), p :: w)
  LoadPackageFile := fun f w => (.ok { Name := f, Version := "1.0.0", Dependencies := [] }, w)
  prompt := fun _ d w => (.ok d, w)
  InitPkg := fun _ _ _ w => (none, w)
  buildImport := fun p w =>
    if p ∈ w then .ok (diamondImports p) else .error (.other "cannot find package")
  ReadDir := fun _ _ => .ok []
  mapRange := id
  SavePackageFile := fun _ _ w => (none, w)
  RewriteImports := fun _ _ _ w => (none, w)
  PublishPackage := fun dir _ w => (.ok ("Qm:" ++ dir), w)

/-- Start of a run in `fetchDiamondEnv`: nothing fetched, empty cache, empty trace. -/
def fetchStart : State (List String) :=
  { i := startState.i, world := [], trace := [] }

/-- State left by publishing `example.org/a` in `fetchDiamondEnv`. -/
def fetchFinal : State (List String) :=
  match GxPublishGoPackage fetchDiamondEnv 4 fetchStart "example.org/a" with
  | some (_, t) => t
  | none => fetchStart

/-- State left by publishing `example.org/foo` in `fooEnv`. -/
def fooFinal : State Unit :=
  match GxPublishGoPackage fooEnv 3 startState "example.org/foo" with
  | some (_, t) => t
  | none => startState

/-- State in `failEnv` when the loop of `example.org/foo` reaches its first child. -/
def failBefore : State Unit :=
  { i := startState.i, world := (),
    trace := [.goGet "example.org/foo",
              .loadPackageFile "/go/src/example.org/foo/package.json",
              .depsToVendor "example.org/foo" (.ok ["example.org/bar"])] }

/-- State in `failEnv` when the publication of the child `example.org/bar` has failed. -/
def failAfter : State Unit :=
  { i := startState.i, world := (),
    trace := failBefore.trace ++
      [.goGet "example.org/bar",
       .loadPackageFile "/go/src/example.org/bar/package.json",
       .depsToVendor "example.org/bar" (.ok []),
       .savePackageFile (manifestOf "example.org/bar" []) "/go/src/example.org/bar/package.json",
       .publishPackage "example.org/bar" "/go/src/example.org/bar"
         (manifestOf "example.org/bar" [])] }

/-! ## Lemmas -/

theorem splitChars_fst (sep : Char) (l : List Char) :
    (splitChars sep l).1 = l.takeWhile (fun c => decide (c ≠ sep)) := by
  induction l with
  | nil => rfl
  | cons c cs ih =>
    by_cases h : c = sep
    · simp [splitChars, h]
    · simp [splitChars, h, ih]

theorem splitChars_snd_eq_nil (sep : Char) (l : List Char) :
    (splitChars sep l).2 = [] ↔ sep ∉ l := by
  induction l with
  | nil => simp [splitChars]
  | cons c cs ih =>
    by_cases h : c = sep
    · simp [splitChars, h]
    · have h2 : ¬ sep = c := fun e => h e.symm
      simp [splitChars, h, ih, h2]

theorem splitChars_fst_no_sep (sep : Char) (l : List Char) :
    sep ∉ (splitChars sep l).1 := by
  induction l with
  | nil => simp [splitChars]
  | cons c cs ih =>
    by_cases h : c = sep
    · simp [splitChars, h]
    · have h2 : ¬ sep = c := fun e => h e.symm
      simp [splitChars, h, ih, h2]

theorem splitChars_snd_no_sep (sep : Char) (l : List Char) :
    ∀ p ∈ (splitChars sep l).2, sep ∉ p := by
  induction l with
  | nil => simp [splitChars]
  | cons c cs ih =>
    by_cases h : c = sep
    · simp only [splitChars, h, if_true, List.mem_cons]
      rintro p (rfl | hp)
      · exact splitChars_fst_no_sep sep cs
      · exact ih p hp
    · simpa [splitChars, h] using ih

theorem splitChars_append_sep (sep : Char) (p rest : List Char) (hp : sep ∉ p) :
    splitChars sep (p ++ sep :: rest) = (p, (splitChars sep rest).1 :: (splitChars sep rest).2) := by
  induction p with
  | nil => simp [splitChars]
  | cons c cs ih =>
    have hc : c ≠ sep := fun h => hp (by simp [h])
    have hcs : sep ∉ cs := fun h => hp (by simp [h])
    simp [splitChars, hc, ih hcs]

theorem splitChars_no_sep (sep : Char) (p : List Char) (hp : sep ∉ p) :
    splitChars sep p = (p, []) := by
  induction p with
  | nil => simp [splitChars]
  | cons c cs ih =>
    have hc : c ≠ sep := fun h => hp (by simp [h])
    have hcs : sep ∉ cs := fun h => hp (by simp [h])
    simp [splitChars, hc, ih hcs]

theorem splitChars_joinChars (sep : Char) (p : List Char) (ps : List (List Char))
    (hp : sep ∉ p) (hps : ∀ q ∈ ps, sep ∉ q) :
    splitChars sep (joinChars [sep] (p :: ps)) = (p, ps) := by
  induction ps generalizing p with
  | nil => simpa [joinChars] using splitChars_no_sep sep p hp
  | cons q qs ih =>
    have hq : sep ∉ q := hps q (by simp)
    have hqs : ∀ r ∈ qs, sep ∉ r := fun r hr => hps r (by simp [hr])
    simp only [joinChars, List.append_assoc, List.singleton_append]
    rw [splitChars_append_sep sep p _ hp, ih q hq hqs]

theorem joinChars_splitChars (sep : Char) (l : List Char) :
    joinChars [sep] ((splitChars sep l).1 :: (splitChars sep l).2) = l := by
  induction l with
  | nil => simp [splitChars, joinChars]
  | cons c cs ih =>
    by_cases h : c = sep
    · simp [splitChars, h, joinChars, ih]
    · simp only [splitChars, h, if_false]
      cases hs : (splitChars sep cs).2 with
      | nil => rw [hs] at ih; simpa [joinChars] using ih
      | cons q qs => rw [hs] at ih; simpa [joinChars] using ih

theorem stringsSplit_no_sep (sep : Char) (s : String) :
    ∀ p ∈ stringsSplit s sep, sep ∉ p.data := by
  intro p hp
  simp only [stringsSplit, List.mem_cons, List.mem_map] at hp
  rcases hp with rfl | ⟨q, hq, rfl⟩
  · exact splitChars_fst_no_sep sep s.data
  · exact splitChars_snd_no_sep sep s.data q hq

theorem stringsSplit_stringsJoin (p : String) (ps : List String)
    (h : ∀ q ∈ p :: ps, '/' ∉ q.data) :
    stringsSplit (stringsJoin (p :: ps) "/") '/' = p :: ps := by
  have h1 : splitChars '/' (joinChars ['/'] (p.data :: ps.map String.data))
      = (p.data, ps.map String.data) := by
    apply splitChars_joinChars
    · exact h p (by simp)
    · intro q hq
      simp only [List.mem_map] at hq
      obtain ⟨r, hr, rfl⟩ := hq
      exact h r (by simp [hr])
  have h2 : (stringsJoin (p :: ps) "/").data = joinChars ['/'] (p.data :: ps.map String.data) := rfl
  simp only [stringsSplit, h2, h1, List.map_map]
  congr 1
  simp [Function.comp_def]

theorem getBaseDVCS_cases (p r : String) (h : getBaseDVCS p = some r) :
    r = p ∨ ∃ p0 p1 p2 tl, stringsSplit p '/' = p0 :: p1 :: p2 :: tl ∧
      r = stringsJoin [p0, p1, p2] "/" := by
  obtain ⟨p0, rest, hparts⟩ : ∃ p0 rest, stringsSplit p '/' = p0 :: rest := ⟨_, _, rfl⟩
  unfold getBaseDVCS at h
  simp only [hparts] at h
  rcases rest with _ | ⟨p1, _ | ⟨p2, tl⟩⟩
  · by_cases h0 : p0 = "golang.org" <;> simp [h0] at h
    exact Or.inl h.symm
  · by_cases h0 : p0 = "golang.org" <;> by_cases h1 : p1 = "x" <;> simp [h0, h1] at h <;>
      exact Or.inl h.symm
  · by_cases h0 : p0 = "golang.org" <;> by_cases h1 : p1 = "x" <;> simp [h0, h1] at h <;>
      split_ifs at h <;> simp only [Option.some.injEq] at h <;>
      first
        | exact Or.inl h.symm
        | exact Or.inr ⟨p0, p1, p2, tl, hparts, by first | exact h.symm | (subst h; simp [h0, h1])⟩

theorem getBaseDVCS_three (p0 p1 p2 : String) (h : ∀ q ∈ [p0, p1, p2], '/' ∉ q.data) :
    getBaseDVCS (stringsJoin [p0, p1, p2] "/") = some (stringsJoin [p0, p1, p2] "/") := by
  have hs : stringsSplit (stringsJoin [p0, p1, p2] "/") '/' = [p0, p1, p2] :=
    stringsSplit_stringsJoin p0 [p1, p2] h
  unfold getBaseDVCS
  simp only [hs]
  by_cases h0 : p0 = "golang.org" <;> by_cases h1 : p1 = "x" <;> simp [h0, h1]

theorem pathIsNotStdlib_iff (path : String) :
    pathIsNotStdlib path = true ↔ '.' ∈ path.data.takeWhile (fun c => decide (c ≠ '/')) := by
  unfold pathIsNotStdlib
  simp only [stringsSplit, List.length_cons, List.length_map]
  rw [← splitChars_fst]
  have := splitChars_snd_eq_nil '.' (splitChars '/' path.data).1
  cases hs : (splitChars '.' (splitChars '/' path.data).1).2 with
  | nil => rw [hs] at this; simp [this.mp rfl]
  | cons q qs =>
    rw [hs] at this
    simp only [List.length_cons]
    simp only [reduceCtorEq, false_iff, not_not] at this
    simp [this]

/-- Outside the `golang.org/x` paths of more than four pieces, the code agrees with the
reference definition on every path of at least two pieces. -/
theorem getBaseDVCS_eq_groupRootSpec (path : String)
    (hlen : 2 ≤ (stringsSplit path '/').length)
    (hx : ¬ ((stringsSplit path '/').take 2 = ["golang.org", "x"] ∧
      4 < (stringsSplit path '/').length)) :
    getBaseDVCS path = some (groupRootSpec path) := by
  obtain ⟨p0, rest, hparts⟩ : ∃ p0 rest, stringsSplit path '/' = p0 :: rest := ⟨_, _, rfl⟩
  unfold getBaseDVCS groupRootSpec
  rw [hparts] at hlen hx
  simp only [hparts]
  rcases rest with _ | ⟨p1, tl⟩
  · simp at hlen
  · by_cases h0 : p0 = "golang.org" <;> by_cases h1 : p1 = "x"
    · subst h0; subst h1
      simp only [List.take_succ_cons, List.take_zero, true_and, List.length_cons, not_lt] at hx
      have : ¬ (tl.length + 1 + 1 > 4) := by omega
      simp [this]
    · simp [h0, h1]; split <;> rfl
    · simp [h0, h1]; split <;> rfl
    · simp [h0, h1]; split <;> rfl

theorem cacheGet_cacheSet_self (m : List (String × Dependency)) (k : String) (d : Dependency) :
    cacheGet (cacheSet m k d) k = some d := by
  induction m with
  | nil => simp [cacheSet, cacheGet]
  | cons e m ih =>
    obtain ⟨a, d0⟩ := e
    by_cases ha : a = k <;> simp [cacheSet, cacheGet, ha, ih]

theorem cacheGet_cacheSet_ne (m : List (String × Dependency)) (k k2 : String) (d : Dependency)
    (h : k2 ≠ k) : cacheGet (cacheSet m k d) k2 = cacheGet m k2 := by
  have hk : ¬ k = k2 := fun e => h e.symm
  induction m with
  | nil => simp [cacheSet, cacheGet, hk]
  | cons e m ih =>
    obtain ⟨a, d0⟩ := e
    by_cases ha : a = k
    · subst ha; simp [cacheSet, cacheGet, hk]
    · by_cases hb : a = k2
      · subst hb; simp [cacheSet, cacheGet, ha]
      · simp [cacheSet, cacheGet, ha, hb, ih]

@[simp] theorem log_i {W : Type} (s : State W) (ev : Event) : (s.log ev).i = s.i := rfl

@[simp] theorem log_world {W : Type} (s : State W) (ev : Event) : (s.log ev).world = s.world := rfl

@[simp] theorem log_trace {W : Type} (s : State W) (ev : Event) :
    (s.log ev).trace = s.trace ++ [ev] := rfl

@[simp] theorem setWorld_i {W : Type} (s : State W) (w : W) : (s.setWorld w).i = s.i := rfl

@[simp] theorem setWorld_world {W : Type} (s : State W) (w : W) : (s.setWorld w).world = w := rfl

@[simp] theorem setWorld_trace {W : Type} (s : State W) (w : W) :
    (s.setWorld w).trace = s.trace := rfl

theorem Quiet.qrefl {W : Type} (s : State W) : Quiet s s := ⟨rfl, fun _ => rfl, fun _ h => h⟩

theorem Quiet.qtrans {W : Type} {s t u : State W} (h1 : Quiet s t) (h2 : Quiet t u) :
    Quiet s u :=
  ⟨h2.1.trans h1.1, fun k => (h2.2.1 k).trans (h1.2.1 k), fun ev h => h2.2.2 ev (h1.2.2 ev h)⟩

theorem quiet_log {W : Type} (s : State W) (ev : Event) (w : W)
    (h : ∀ k, isPublishOf k ev = false) : Quiet s ((s.log ev).setWorld w) := by
  refine ⟨rfl, fun k => ?_, fun ev hev => ?_⟩
  · simp [publishCount, List.countP_append, List.countP_cons, h k]
  · simp [hev]

theorem quiet_log1 {W : Type} (s : State W) (ev : Event)
    (h : ∀ k, isPublishOf k ev = false) : Quiet s (s.log ev) := by
  refine ⟨rfl, fun k => ?_, fun ev hev => ?_⟩
  · simp [publishCount, List.countP_append, List.countP_cons, h k]
  · simp [hev]

theorem quiet_GoGet {W : Type} (env : Env W) (p : String) (s : State W) :
    Quiet s (GoGet env p s).2 := by
  unfold GoGet
  split <;> exact quiet_log _ _ _ (by intro _; rfl)

theorem quiet_promptName {W : Type} (env : Env W) (a b : String) (s : State W) :
    Quiet s (promptName env a b s).2 := by
  unfold promptName
  split
  · split <;> exact quiet_log _ _ _ (by intro _; rfl)
  · exact Quiet.qrefl s

theorem quiet_initPackage {W : Type} (env : Env W) (a b c : String) (s : State W) :
    Quiet s (initPackage env a b c s).2 := by
  have hp := quiet_promptName env a ((stringsSplit a '/').getLast (List.cons_ne_nil _ _)) s
  unfold initPackage
  split
  · next h => rw [h] at hp; exact hp
  · next h => rw [h] at hp; exact hp
  · next h =>
    rw [h] at hp
    split
    · exact hp.qtrans (quiet_log _ _ _ (by intro _; rfl))
    · split
      · exact hp.qtrans ((quiet_log _ _ _ (by intro _; rfl)).qtrans (quiet_log _ _ _ (by intro _; rfl)))
      · exact hp.qtrans ((quiet_log _ _ _ (by intro _; rfl)).qtrans (quiet_log _ _ _ (by intro _; rfl)))

theorem quiet_loadOrInit {W : Type} (env : Env W) (a b c : String) (s : State W) :
    Quiet s (loadOrInit env a b c s).2 := by
  unfold loadOrInit
  split
  · exact quiet_log _ _ _ (by intro _; rfl)
  · split
    · exact quiet_log _ _ _ (by intro _; rfl)
    · exact (quiet_log _ _ _ (by intro _; rfl)).qtrans (quiet_initPackage _ _ _ _ _)

theorem quiet_rewriteImports {W : Type} (env : Env W) (a : String) (s : State W) :
    Quiet s (rewriteImports env a s).2 := by
  unfold rewriteImports
  exact quiet_log _ _ _ (by intro _; rfl)

theorem quiet_rewriteStep {W : Type} (env : Env W) (a : String) (s : State W) :
    Quiet s (rewriteStep env a s).2 := by
  unfold rewriteStep
  split
  · split
    · exact quiet_log1 _ _ (by intro _; rfl)
    · exact (quiet_log1 _ _ (by intro _; rfl)).qtrans (quiet_rewriteImports _ _ _)
  · exact Quiet.qrefl s

/-- What a successful `finishPublish` does to the importer and the publication counts. -/
theorem finishPublish_ok {W : Type} (env : Env W) (r pkgpath file : String) (pkg : Package)
    (s t : State W) (d : Dependency)
    (h : finishPublish env r pkgpath file pkg s = (.ok d, t)) :
    t.i = { s.i with pkgs := cacheSet s.i.pkgs r d } ∧
    d.Name = pkg.Name ∧ d.Version = pkg.Version ∧
    ∀ k, publishCount k t.trace = publishCount k s.trace + (if r = k then 1 else 0) := by
  unfold finishPublish at h
  split at h
  · simp at h
  · next w hs =>
    have hq := (quiet_log s (.savePackageFile pkg file) w (by intro _; rfl)).qtrans
      (quiet_rewriteStep env pkgpath _)
    split at h
    · simp at h
    · next s2 hr =>
      rw [hr] at hq
      unfold publishStep at h
      split at h
      · simp at h
      · next hash w1 hp =>
        simp only [Prod.mk.injEq, Outcome.ok.injEq] at h
        obtain ⟨rfl, rfl⟩ := h
        have hq1 : s2.i = s.i := hq.1
        refine ⟨?_, rfl, rfl, fun k => ?_⟩
        · simp [hq1]
        · simp [publishCount, List.countP_append, List.countP_cons, isPublishOf]
          exact hq.2.1 k

/-- A `finishPublish` that does not succeed leaves the importer as it was. -/
theorem finishPublish_not_ok {W : Type} (env : Env W) (r pkgpath file : String) (pkg : Package)
    (s : State W) (h : ∀ d, (finishPublish env r pkgpath file pkg s).1 ≠ .ok d) :
    (finishPublish env r pkgpath file pkg s).2.i = s.i := by
  unfold finishPublish at h ⊢
  split
  · rfl
  · next w hs =>
    have hq := (quiet_log s (.savePackageFile pkg file) w (by intro _; rfl)).qtrans
      (quiet_rewriteStep env pkgpath _)
    split
    · next hr => rw [hr] at hq; exact hq.1
    · next s2 hr =>
      rw [hr] at hq
      simp only [hs, hr] at h
      unfold publishStep at h ⊢
      split
      · exact hq.1
      · next hp => simp [hp] at h

/-- Inversion of `publishTail`: how a result of the part after the fetch came about. -/
theorem publishTail_inv {W : Type}
    (publish : State W → String → Option (Outcome Dependency × State W))
    (walk : String → W → String → Option (Except GoError (List String)))
    (env : Env W) (s1 : State W) (r : String) (o : Outcome Dependency) (t : State W)
    (h : publishTail publish walk env s1 r = some (o, t)) :
    ((∀ d, o ≠ .ok d) ∧ Quiet s1 t) ∨
    ∃ pkg s2 deps, Quiet s1 s2 ∧
      loadOrInit env r (env.pathJoin [s1.i.gopath, "src", r])
        (env.pathJoin [env.pathJoin [s1.i.gopath, "src", r], env.PkgFileName]) s1 = (.ok pkg, s2) ∧
      walk s2.i.gopath s2.world r = some (.ok deps) ∧
      (((∀ d, o ≠ .ok d) ∧ ∃ op, (∀ p, op ≠ .ok p) ∧
          publishDeps publish r deps pkg (s2.log (.depsToVendor r (.ok deps))) = some (op, t)) ∨
        ∃ pkg1 s3, publishDeps publish r deps pkg (s2.log (.depsToVendor r (.ok deps))) = some (.ok pkg1, s3) ∧
          finishPublish env r (env.pathJoin [s1.i.gopath, "src", r])
            (env.pathJoin [env.pathJoin [s1.i.gopath, "src", r], env.PkgFileName]) pkg1 s3
            = (o, t)) := by
  unfold publishTail at h
  have hq := quiet_loadOrInit env r (env.pathJoin [s1.i.gopath, "src", r])
        (env.pathJoin [env.pathJoin [s1.i.gopath, "src", r], env.PkgFileName]) s1
  dsimp only at h
  split at h
  · next err s2 hl =>
    rw [hl] at hq
    simp only [Option.some.injEq, Prod.mk.injEq] at h
    obtain ⟨rfl, rfl⟩ := h
    exact Or.inl ⟨by intro d; simp, hq⟩
  · next s2 hl =>
    rw [hl] at hq
    simp only [Option.some.injEq, Prod.mk.injEq] at h
    obtain ⟨rfl, rfl⟩ := h
    exact Or.inl ⟨by intro d; simp, hq⟩
  · next pkg s2 hl =>
    rw [hl] at hq
    split at h
    · simp at h
    · next err hw =>
      simp only [Option.some.injEq, Prod.mk.injEq] at h
      obtain ⟨rfl, rfl⟩ := h
      exact Or.inl ⟨by intro d; simp, Quiet.qtrans hq (quiet_log1 _ _ (by intro _; rfl))⟩
    · next deps hw =>
      refine Or.inr ⟨pkg, s2, deps, hq, hl, hw, ?_⟩
      split at h
      · simp at h
      · next err s3 hd =>
        simp only [Option.some.injEq, Prod.mk.injEq] at h
        obtain ⟨rfl, rfl⟩ := h
        exact Or.inl ⟨by intro d; simp, .error err, by intro p; simp, hd⟩
      · next s3 hd =>
        simp only [Option.some.injEq, Prod.mk.injEq] at h
        obtain ⟨rfl, rfl⟩ := h
        exact Or.inl ⟨by intro d; simp, .panic, by intro p; simp, hd⟩
      · next pkg1 s3 hd =>
        simp only [Option.some.injEq] at h
        exact Or.inr ⟨pkg1, s3, hd, h⟩

/-- Inversion of `publishBody`: panic, cache hit, or cache miss with a tolerated or fatal
fetch. -/
theorem publishBody_inv {W : Type}
    (publish : State W → String → Option (Outcome Dependency × State W))
    (walk : String → W → String → Option (Except GoError (List String)))
    (env : Env W) (s : State W) (x : String) (o : Outcome Dependency) (t : State W)
    (h : publishBody publish walk env s x = some (o, t)) :
    (getBaseDVCS x = none ∧ o = .panic ∧ t = s) ∨
    (∃ r d, getBaseDVCS x = some r ∧ cacheGet s.i.pkgs r = some d ∧ o = .ok d ∧ t = s) ∨
    (∃ r, getBaseDVCS x = some r ∧ cacheGet s.i.pkgs r = none ∧
      (((∀ d, o ≠ .ok d) ∧ Quiet s t) ∨
        ∃ s1, Quiet s s1 ∧ s1 = (GoGet env r s).2 ∧
          publishTail publish walk env s1 r = some (o, t))) := by
  unfold publishBody at h
  split at h
  · simp only [Option.some.injEq, Prod.mk.injEq] at h
    exact Or.inl ⟨by assumption, h.1.symm, h.2.symm⟩
  · next r hr =>
    split at h
    · next d hd =>
      simp only [Option.some.injEq, Prod.mk.injEq] at h
      exact Or.inr (Or.inl ⟨r, d, hr, hd, h.1.symm, h.2.symm⟩)
    · next hd =>
      refine Or.inr (Or.inr ⟨r, hr, hd, ?_⟩)
      have hq := quiet_GoGet env r s
      split at h
      · next err s1 hg =>
        rw [hg] at hq
        split at h
        · simp only [Option.some.injEq, Prod.mk.injEq] at h
          obtain ⟨rfl, rfl⟩ := h
          exact Or.inl ⟨by intro d; simp, hq⟩
        · exact Or.inr ⟨s1, hq, by rw [hg], h⟩
      · next s1 hg =>
        rw [hg] at hq
        exact Or.inr ⟨s1, hq, by rw [hg], h⟩

theorem CacheLe.crefl {W : Type} (s : State W) : CacheLe s s := fun _ _ h => h

theorem CacheLe.ctrans {W : Type} {s t u : State W} (h1 : CacheLe s t) (h2 : CacheLe t u) :
    CacheLe s u := fun k d h => h2 k d (h1 k d h)

theorem Quiet.toCacheLe {W : Type} {s t : State W} (h : Quiet s t) : CacheLe s t := by
  intro k d hk
  rw [h.1]; exact hk

/-- A relation that holds across every recursive call holds across the loop. -/
theorem publishDeps_rel {W : Type}
    (publish : State W → String → Option (Outcome Dependency × State W))
    (R : State W → State W → Prop) (hrefl : ∀ s, R s s)
    (htrans : ∀ s t u, R s t → R t u → R s u)
    (hrec : ∀ s x o t, publish s x = some (o, t) → R s t)
    (r : String) (deps : List String) (pkg : Package) (s : State W)
    (o : Outcome Package) (t : State W)
    (h : publishDeps publish r deps pkg s = some (o, t)) : R s t := by
  induction deps generalizing pkg s with
  | nil =>
    simp only [publishDeps, Option.some.injEq, Prod.mk.injEq] at h
    rw [← h.2]; exact hrefl s
  | cons child rest ih =>
    simp only [publishDeps] at h
    split at h
    · exact ih pkg s h
    · split at h
      · simp at h
      · next err s1 hc =>
        simp only [Option.some.injEq, Prod.mk.injEq] at h
        rw [← h.2]; exact hrec _ _ _ _ hc
      · next s1 hc =>
        simp only [Option.some.injEq, Prod.mk.injEq] at h
        rw [← h.2]; exact hrec _ _ _ _ hc
      · next d s1 hc =>
        exact htrans _ _ _ (hrec _ _ _ _ hc) (ih _ s1 h)

theorem finishPublish_cases {W : Type} (env : Env W) (r pkgpath file : String) (pkg : Package)
    (s t : State W) (o : Outcome Dependency)
    (h : finishPublish env r pkgpath file pkg s = (o, t)) :
    (∃ d, o = .ok d ∧ t.i = { s.i with pkgs := cacheSet s.i.pkgs r d }) ∨
    ((∀ d, o ≠ .ok d) ∧ t.i = s.i) := by
  cases o with
  | ok d => exact Or.inl ⟨d, rfl, (finishPublish_ok env r pkgpath file pkg s t d h).1⟩
  | error e =>
    refine Or.inr ⟨by intro d; simp, ?_⟩
    have := finishPublish_not_ok env r pkgpath file pkg s (by rw [h]; intro d; simp)
    rw [h] at this; exact this
  | panic =>
    refine Or.inr ⟨by intro d; simp, ?_⟩
    have := finishPublish_not_ok env r pkgpath file pkg s (by rw [h]; intro d; simp)
    rw [h] at this; exact this

/-- The cache only grows: an entry present before a call is unchanged after it. -/
theorem publish_cacheLe {W : Type} (env : Env W) (n : Nat) :
    ∀ (s : State W) (x : String) (o : Outcome Dependency) (t : State W),
      GxPublishGoPackage env n s x = some (o, t) → CacheLe s t := by
  induction n with
  | zero => intro s x o t h; simp [GxPublishGoPackage] at h
  | succ n ih =>
    intro s x o t h
    simp only [GxPublishGoPackage] at h
    rcases publishBody_inv _ _ env s x o t h with ⟨-, -, rfl⟩ | ⟨r, d, -, -, -, rfl⟩ |
      ⟨r, hr, hmiss, ⟨-, hq⟩ | ⟨s1, hq1, -, htail⟩⟩
    · exact CacheLe.crefl _
    · exact CacheLe.crefl _
    · exact hq.toCacheLe
    · rcases publishTail_inv _ _ env s1 r o t htail with ⟨-, hq⟩ |
        ⟨pkg, s2, deps, hq2, -, -, ⟨-, op, -, hloop⟩ | ⟨pkg1, s3, hloop, hfin⟩⟩
      · exact hq1.toCacheLe.ctrans hq.toCacheLe
      · have hl := publishDeps_rel _ CacheLe CacheLe.crefl (fun _ _ _ => CacheLe.ctrans) ih
          r deps pkg _ op t hloop
        exact hq1.toCacheLe.ctrans (hq2.toCacheLe.ctrans
          ((quiet_log1 s2 (.depsToVendor r _) (by intro _; rfl)).toCacheLe.ctrans hl))
      · have hl := publishDeps_rel _ CacheLe CacheLe.crefl (fun _ _ _ => CacheLe.ctrans) ih
          r deps pkg _ _ s3 hloop
        have h3 : CacheLe s s3 := hq1.toCacheLe.ctrans (hq2.toCacheLe.ctrans
          ((quiet_log1 s2 (.depsToVendor r _) (by intro _; rfl)).toCacheLe.ctrans hl))
        rcases finishPublish_cases env r _ _ pkg1 s3 t o hfin with ⟨d, -, hi⟩ | ⟨-, hi⟩
        · intro k dk hk
          have hne : k ≠ r := by
            rintro rfl; rw [hmiss] at hk; simp at hk
          rw [hi]
          simp only
          rw [cacheGet_cacheSet_ne _ _ _ _ hne]
          exact h3 k dk hk
        · intro k dk hk
          rw [hi]; exact h3 k dk hk

theorem publishDeps_ok_handles {W : Type}
    (publish : State W → String → Option (Outcome Dependency × State W))
    (r : String) (deps : List String) (pkg pkg1 : Package) (s t : State W)
    (h : publishDeps publish r deps pkg s = some (.ok pkg1, t)) :
    ∃ hs, childHandles publish r deps s = some (hs, t) ∧
      pkg1 = { pkg with Dependencies := pkg.Dependencies ++ hs } ∧
      hs.length = (deps.filter (fun ch => !stringsHasPrefix ch r)).length := by
  induction deps generalizing pkg s with
  | nil =>
    simp only [publishDeps, Option.some.injEq, Prod.mk.injEq, Outcome.ok.injEq] at h
    obtain ⟨rfl, rfl⟩ := h
    exact ⟨[], rfl, by simp, rfl⟩
  | cons child rest ih =>
    simp only [publishDeps] at h
    by_cases hc : stringsHasPrefix child r = true
    · rw [if_pos hc] at h
      obtain ⟨hs, h1, h2, h3⟩ := ih pkg s h
      exact ⟨hs, by simp [childHandles, hc, h1], h2, by simp [List.filter, hc, h3]⟩
    · rw [if_neg hc] at h
      split at h
      · simp at h
      · simp at h
      · simp at h
      · next d s1 hp =>
        obtain ⟨hs, h1, h2, h3⟩ := ih _ s1 h
        refine ⟨d :: hs, by simp [childHandles, hc, hp, h1], ?_, ?_⟩
        · rw [h2]; simp
        · simp [List.filter, hc, h3]

theorem finishPublish_trace {W : Type} (env : Env W) (r pkgpath file : String) (pkg : Package)
    (s t : State W) (d : Dependency)
    (h : finishPublish env r pkgpath file pkg s = (.ok d, t)) :
    ∃ mid, t.trace = s.trace ++ [.savePackageFile pkg file] ++ mid ++
        [.publishPackage r pkgpath pkg] ∧
      ∀ ev ∈ mid, (∃ p, ev = .filepathAbs p) ∨ (∃ p, ev = .rewriteImports p) := by
  unfold finishPublish at h
  split at h
  · simp at h
  · next w hs =>
    have hrw : ∃ mid, (rewriteStep env pkgpath
          ((s.log (.savePackageFile pkg file)).setWorld w)).2.trace
          = s.trace ++ [.savePackageFile pkg file] ++ mid ∧
        ∀ ev ∈ mid, (∃ p, ev = .filepathAbs p) ∨ (∃ p, ev = .rewriteImports p) := by
      unfold rewriteStep
      split
      · split
        · exact ⟨[.filepathAbs pkgpath], by simp, by simp⟩
        · next full _ =>
          exact ⟨[.filepathAbs pkgpath, .rewriteImports full], by simp [rewriteImports], by simp⟩
      · exact ⟨[], by simp, by simp⟩
    split at h
    · simp at h
    · next s2 hr =>
      rw [hr] at hrw
      obtain ⟨mid, hm, hmid⟩ := hrw
      refine ⟨mid, ?_, hmid⟩
      unfold publishStep at h
      split at h
      · simp at h
      · simp only [Prod.mk.injEq, Outcome.ok.injEq] at h
        rw [← h.2]
        simp only at hm ⊢
        rw [hm]

theorem publishDeps_eq_publishEach {W : Type}
    (publish : State W → String → Option (Outcome Dependency × State W))
    (r : String) (deps : List String) (pkg : Package) (s : State W) :
    publishDeps publish r deps pkg s
      = publishEach publish (deps.filter (fun ch => !stringsHasPrefix ch r)) pkg s := by
  induction deps generalizing pkg s with
  | nil => rfl
  | cons child rest ih =>
    by_cases hc : stringsHasPrefix child r = true
    · simp [publishDeps, List.filter, hc, ih]
    · simp only [publishDeps, List.filter, hc, if_false, Bool.not_false, Bool.not_eq_true] 
      simp only [Bool.not_eq_true] at hc
      simp only [hc, Bool.not_false, publishEach]
      rcases publish s child with _ | ⟨_ | _ | _, s1⟩ <;> simp [ih]

theorem stringsHasPrefix_iff (child r : String) :
    stringsHasPrefix child r = true ↔ ∃ t : String, child = r ++ t := by
  unfold stringsHasPrefix
  rw [List.isPrefixOf_iff_prefix]
  constructor
  · rintro ⟨t, ht⟩
    exact ⟨⟨t⟩, by apply String.ext; simp [ht]⟩
  · rintro ⟨t, rfl⟩
    exact ⟨t.data, by simp⟩

theorem isSubPath_hasPrefix (child r : String) (h : isSubPath child r = true) :
    stringsHasPrefix child r = true := by
  unfold isSubPath at h
  simp only [Bool.or_eq_true, decide_eq_true_eq] at h
  rcases h with rfl | h
  · exact (stringsHasPrefix_iff _ _).2 ⟨"", by simp⟩
  · obtain ⟨t, rfl⟩ := (stringsHasPrefix_iff _ _).1 h
    exact (stringsHasPrefix_iff _ _).2 ⟨"/" ++ t, by simp [String.append_assoc]⟩

theorem publish_manifest_general {W : Type} (env : Env W) (n : Nat) (s t : State W)
    (path r : String) (d : Dependency)
    (hr : getBaseDVCS path = some r) (hmiss : cacheGet s.i.pkgs r = none)
    (hok : GxPublishGoPackage env (n + 1) s path = some (.ok d, t)) :
    ∃ pkg s2 deps hs s3 mid,
      loadOrInit env r (pkgDir env s r) (pkgFile env s r) (GoGet env r s).2 = (.ok pkg, s2) ∧
      depsToVendorForPackage n env s2.i.gopath s2.world r = some (.ok deps) ∧
      childHandles (GxPublishGoPackage env n) r deps (s2.log (.depsToVendor r (.ok deps))) = some (hs, s3) ∧
      hs.length = (deps.filter (fun ch => !stringsHasPrefix ch r)).length ∧
      t.trace = s3.trace
        ++ [.savePackageFile { pkg with Dependencies := pkg.Dependencies ++ hs } (pkgFile env s r)]
        ++ mid
        ++ [.publishPackage r (pkgDir env s r)
              { pkg with Dependencies := pkg.Dependencies ++ hs }] ∧
      (∀ ev ∈ mid, (∃ p, ev = .filepathAbs p) ∨ (∃ p, ev = .rewriteImports p)) ∧
      d.Name = pkg.Name ∧ d.Version = pkg.Version := by
  simp only [GxPublishGoPackage] at hok
  rcases publishBody_inv _ _ env s path _ t hok with ⟨hp, -, -⟩ | ⟨r2, d2, hr2, hd, -, -⟩ |
    ⟨r2, hr2, -, ⟨hno, -⟩ | ⟨s1, hq1, hs1, htail⟩⟩
  · rw [hp] at hr; simp at hr
  · rw [hr] at hr2; simp only [Option.some.injEq] at hr2; subst hr2
    rw [hmiss] at hd; simp at hd
  · exact absurd rfl (hno d)
  · rw [hr] at hr2; simp only [Option.some.injEq] at hr2; subst hr2
    have hi : s1.i = s.i := hq1.1
    rcases publishTail_inv _ _ env s1 r _ t htail with ⟨hno, -⟩ |
      ⟨pkg, s2, deps, -, hload, hwalk, ⟨hno, -⟩ | ⟨pkg1, s3, hloop, hfin⟩⟩
    · exact absurd rfl (hno d)
    · exact absurd rfl (hno d)
    · obtain ⟨hs, hch, hpkg, hlen⟩ := publishDeps_ok_handles _ r deps pkg pkg1 _ s3 hloop
      subst hpkg
      obtain ⟨mid, htr, hmid⟩ := finishPublish_trace env r _ _ _ s3 t d hfin
      obtain ⟨-, hn, hv, -⟩ := finishPublish_ok env r _ _ _ s3 t d hfin
      rw [hi] at hload htr
      subst hs1
      exact ⟨pkg, s2, deps, hs, s3, mid, hload, hwalk, hch, hlen, htr, hmid, hn, hv⟩

theorem TraceSub.tsrefl {W : Type} (s : State W) : TraceSub s s := fun _ h => h

theorem TraceSub.tstrans {W : Type} {s t u : State W} (h1 : TraceSub s t) (h2 : TraceSub t u) :
    TraceSub s u := fun ev h => h2 ev (h1 ev h)

theorem Quiet.toTraceSub {W : Type} {s t : State W} (h : Quiet s t) : TraceSub s t := h.2.2

theorem finishPublish_traceSub {W : Type} (env : Env W) (r pkgpath file : String) (pkg : Package)
    (s : State W) : TraceSub s (finishPublish env r pkgpath file pkg s).2 := by
  unfold finishPublish
  split
  · intro ev hev; simp [hev]
  · next w hs =>
    have hq := (quiet_log s (.savePackageFile pkg file) w (by intro _; rfl)).qtrans
      (quiet_rewriteStep env pkgpath _)
    split
    · next hr => rw [hr] at hq; exact hq.toTraceSub
    · next s2 hr =>
      rw [hr] at hq
      have h2 : TraceSub s s2 := hq.toTraceSub
      unfold publishStep
      split
      · intro ev hev; simp [h2 ev hev]
      · intro ev hev; simp [h2 ev hev]

/-- The trace only grows: every event recorded before a call is still there after it. -/
theorem publish_traceSub {W : Type} (env : Env W) (n : Nat) :
    ∀ (s : State W) (x : String) (o : Outcome Dependency) (t : State W),
      GxPublishGoPackage env n s x = some (o, t) → TraceSub s t := by
  induction n with
  | zero => intro s x o t h; simp [GxPublishGoPackage] at h
  | succ n ih =>
    intro s x o t h
    simp only [GxPublishGoPackage] at h
    rcases publishBody_inv _ _ env s x o t h with ⟨-, -, rfl⟩ | ⟨r, d, -, -, -, rfl⟩ |
      ⟨r, hr, hmiss, ⟨-, hq⟩ | ⟨s1, hq1, -, htail⟩⟩
    · exact TraceSub.tsrefl _
    · exact TraceSub.tsrefl _
    · exact hq.toTraceSub
    · rcases publishTail_inv _ _ env s1 r o t htail with ⟨-, hq⟩ |
        ⟨pkg, s2, deps, hq2, -, -, ⟨-, op, -, hloop⟩ | ⟨pkg1, s3, hloop, hfin⟩⟩
      · exact hq1.toTraceSub.tstrans hq.toTraceSub
      · have hl := publishDeps_rel _ TraceSub TraceSub.tsrefl (fun _ _ _ => TraceSub.tstrans) ih
          r deps pkg _ op t hloop
        exact hq1.toTraceSub.tstrans (hq2.toTraceSub.tstrans
          ((quiet_log1 s2 (.depsToVendor r _) (by intro _; rfl)).toTraceSub.tstrans hl))
      · have hl := publishDeps_rel _ TraceSub TraceSub.tsrefl (fun _ _ _ => TraceSub.tstrans) ih
          r deps pkg _ _ s3 hloop
        have hf := finishPublish_traceSub env r (env.pathJoin [s1.i.gopath, "src", r])
          (env.pathJoin [env.pathJoin [s1.i.gopath, "src", r], env.PkgFileName]) pkg1 s3
        rw [hfin] at hf
        exact hq1.toTraceSub.tstrans (hq2.toTraceSub.tstrans
          ((quiet_log1 s2 (.depsToVendor r _) (by intro _; rfl)).toTraceSub.tstrans
            (hl.tstrans hf)))

theorem publishDeps_traceSub {W : Type} (env : Env W) (n : Nat) (r : String)
    (deps : List String) (pkg : Package) (s : State W) (o : Outcome Package) (t : State W)
    (h : publishDeps (GxPublishGoPackage env n) r deps pkg s = some (o, t)) : TraceSub s t :=
  publishDeps_rel _ TraceSub TraceSub.tsrefl (fun _ _ _ => TraceSub.tstrans)
    (publish_traceSub env n) r deps pkg s o t h

theorem WalkerAgrees.back {W : Type} {walkOf : String → Except GoError (List String)}
    {s t : State W} (h : TraceSub s t) (ht : WalkerAgrees walkOf t.trace) :
    WalkerAgrees walkOf s.trace := fun r res hmem => ht r res (h _ hmem)

theorem sameWalk_ok (deps : List String) (res : Except GoError (List String))
    (h : sameWalk (.ok deps) res = true) :
    ∃ l, res = .ok l ∧ ∀ x, x ∈ deps ↔ x ∈ l := by
  cases res with
  | error e => simp [sameWalk] at h
  | ok l =>
    simp only [sameWalk, Bool.and_eq_true, List.all_eq_true, decide_eq_true_eq] at h
    exact ⟨l, rfl, fun x => ⟨h.1 x, h.2 x⟩⟩

/-- The list the walker returned at the start of a loop has the members `walkOf` gives. -/
theorem walkOf_of_logged {W : Type} {walkOf : String → Except GoError (List String)}
    (s2 t : State W) (r : String) (deps : List String)
    (h : TraceSub (s2.log (.depsToVendor r (.ok deps))) t) (ht : WalkerAgrees walkOf t.trace) :
    ∃ l, walkOf r = .ok l ∧ ∀ x, x ∈ deps ↔ x ∈ l :=
  sameWalk_ok deps (walkOf r) (ht r (.ok deps) (h _ (by simp)))

theorem Chain.mono {walkOf : String → Except GoError (List String)} {m1 m2 : String → Prop}
    {k z : String} (hm : ∀ b, m1 b → m2 b) (h : Chain walkOf m1 k z) : Chain walkOf m2 k z := by
  induction h with
  | here h => exact Chain.here (hm _ h)
  | step z z2 hz he _ ih => exact Chain.step z z2 (hm _ hz) he ih

theorem Chain.miss {walkOf : String → Except GoError (List String)} {m : String → Prop}
    {k z : String} (h : Chain walkOf m k z) : m z := by
  cases h with
  | here h => exact h
  | step _ _ hz _ _ => exact hz

/-- A relation that holds across every successful recursive call holds across a
successful loop. -/
theorem publishDeps_ok_rel {W : Type}
    (publish : State W → String → Option (Outcome Dependency × State W))
    (R : State W → State W → Prop) (hrefl : ∀ s, R s s)
    (htrans : ∀ s t u, R s t → R t u → R s u)
    (hrec : ∀ s x d t, publish s x = some (.ok d, t) → R s t)
    (r : String) (deps : List String) (pkg pkg1 : Package) (s t : State W)
    (h : publishDeps publish r deps pkg s = some (.ok pkg1, t)) : R s t := by
  induction deps generalizing pkg s with
  | nil =>
    simp only [publishDeps, Option.some.injEq, Prod.mk.injEq] at h
    rw [← h.2]; exact hrefl s
  | cons child rest ih =>
    simp only [publishDeps] at h
    split at h
    · exact ih pkg s h
    · split at h
      · simp at h
      · simp at h
      · simp at h
      · next d s1 hc =>
        exact htrans _ _ _ (hrec _ _ _ _ hc) (ih _ s1 h)

/-- The loop cannot succeed when it reaches a child whose publication cannot succeed.
The predicate `A` is one that holds at the end of the loop and is inherited backwards
along every recursive call. -/
theorem publishDeps_blocked {W : Type}
    (publish : State W → String → Option (Outcome Dependency × State W))
    (A P : State W → Prop)
    (hback : ∀ s x o t, publish s x = some (o, t) → A t → A s)
    (hkeep : ∀ s x o t, P s → publish s x = some (o, t) → A t → P t)
    (r ch : String) (hskip : stringsHasPrefix ch r = false)
    (hblock : ∀ s d t, P s → publish s ch = some (.ok d, t) → A t → False)
    (deps : List String) (hmem : ch ∈ deps) (pkg pkg1 : Package) (s t : State W) (hs : P s)
    (hA : A t)
    (h : publishDeps publish r deps pkg s = some (.ok pkg1, t)) : False := by
  induction deps generalizing pkg s with
  | nil => simp at hmem
  | cons child rest ih =>
    simp only [publishDeps] at h
    by_cases hc : stringsHasPrefix child r = true
    · rw [if_pos hc] at h
      have : ch ∈ rest := by
        rcases List.mem_cons.1 hmem with rfl | hm
        · rw [hskip] at hc; simp at hc
        · exact hm
      exact ih this pkg s hs h
    · rw [if_neg hc] at h
      split at h
      · simp at h
      · simp at h
      · simp at h
      · next d s1 hp =>
        have hA1 : A s1 := publishDeps_rel publish (fun a b => A b → A a)
          (fun _ h => h) (fun _ _ _ h1 h2 h3 => h1 (h2 h3)) hback r rest _ s1 _ t h hA
        rcases List.mem_cons.1 hmem with rfl | hm
        · exact hblock s d s1 hs hp hA1
        · exact ih hm _ s1 (hkeep _ _ _ _ hs hp hA1) h

/-- No grouped path of a set `B`, closed under taking some successor and absent from the
cache, is published successfully by a call whose recorded walker results are those of
`walkOf`, and `B` stays absent from the cache. -/
theorem closed_set_blocks {W : Type} (env : Env W)
    (walkOf : String → Except GoError (List String))
    (B : String → Prop) (hB : ∀ b, B b → ∃ z, Edge walkOf b z ∧ B z) (n : Nat) :
    ∀ (s : State W) (x : String) (o : Outcome Dependency) (t : State W),
      (∀ b, B b → cacheGet s.i.pkgs b = none) →
      GxPublishGoPackage env n s x = some (o, t) →
      WalkerAgrees walkOf t.trace →
      (∀ b, B b → cacheGet t.i.pkgs b = none) ∧
      (∀ r, getBaseDVCS x = some r → B r → ∀ d, o ≠ .ok d) := by
  induction n with
  | zero => intro s x o t _ h; simp [GxPublishGoPackage] at h
  | succ n ih =>
    intro s x o t hs h hA
    simp only [GxPublishGoPackage] at h
    have keepQ : ∀ u : State W, Quiet s u → ∀ b, B b → cacheGet u.i.pkgs b = none := by
      intro u hq b hb; rw [hq.1]; exact hs b hb
    have hbackCall : ∀ (a : State W) (y : String) (oy : Outcome Dependency) (b : State W),
        GxPublishGoPackage env n a y = some (oy, b) →
        WalkerAgrees walkOf b.trace → WalkerAgrees walkOf a.trace :=
      fun a y oy b hy hb => WalkerAgrees.back (publish_traceSub env n a y oy b hy) hb
    rcases publishBody_inv _ _ env s x o t h with ⟨-, rfl, rfl⟩ | ⟨r, d, hr, hd, -, rfl⟩ |
      ⟨r, hr, hmiss, ⟨hno, hq⟩ | ⟨s1, hq1, -, htail⟩⟩
    · exact ⟨hs, fun _ _ _ d => by simp⟩
    · refine ⟨hs, fun r2 hr2 hb => ?_⟩
      rw [hr] at hr2; simp only [Option.some.injEq] at hr2; subst hr2
      rw [hs r hb] at hd; simp at hd
    · exact ⟨keepQ t hq, fun _ _ _ => hno⟩
    · rcases publishTail_inv _ _ env s1 r o t htail with ⟨hno, hq⟩ |
        ⟨pkg, s2, deps, hq2, -, hw, ⟨hno, op, -, hloop⟩ | ⟨pkg1, s3, hloop, hfin⟩⟩
      · exact ⟨keepQ t (hq1.qtrans hq), fun _ _ _ => hno⟩
      · have hstart := keepQ _ (hq1.qtrans (hq2.qtrans
          (quiet_log1 s2 (.depsToVendor r (.ok deps)) (by intro _; rfl))))
        have := publishDeps_rel (GxPublishGoPackage env n)
          (fun a b => (WalkerAgrees walkOf b.trace → WalkerAgrees walkOf a.trace) ∧
            (WalkerAgrees walkOf b.trace → (∀ b2, B b2 → cacheGet a.i.pkgs b2 = none) →
              (∀ b2, B b2 → cacheGet b.i.pkgs b2 = none)))
          (fun _ => ⟨fun h => h, fun _ h => h⟩)
          (fun _ _ _ h1 h2 => ⟨fun h => h1.1 (h2.1 h), fun h h3 => h2.2 h (h1.2 (h2.1 h) h3)⟩)
          (fun a y oy b hy => ⟨hbackCall a y oy b hy, fun hb ha => (ih a y oy b ha hy hb).1⟩)
          r deps pkg _ op t hloop
        exact ⟨this.2 hA hstart, fun _ _ _ => hno⟩
      · have hstart := keepQ _ (hq1.qtrans (hq2.qtrans
          (quiet_log1 s2 (.depsToVendor r (.ok deps)) (by intro _; rfl))))
        have hf := finishPublish_traceSub env r (env.pathJoin [s1.i.gopath, "src", r])
          (env.pathJoin [env.pathJoin [s1.i.gopath, "src", r], env.PkgFileName]) pkg1 s3
        rw [hfin] at hf
        have hA3 : WalkerAgrees walkOf s3.trace := WalkerAgrees.back hf hA
        have h3 := (publishDeps_ok_rel (GxPublishGoPackage env n)
          (fun a b => (WalkerAgrees walkOf b.trace → WalkerAgrees walkOf a.trace) ∧
            (WalkerAgrees walkOf b.trace → (∀ b2, B b2 → cacheGet a.i.pkgs b2 = none) →
              (∀ b2, B b2 → cacheGet b.i.pkgs b2 = none)))
          (fun _ => ⟨fun h => h, fun _ h => h⟩)
          (fun _ _ _ h1 h2 => ⟨fun h => h1.1 (h2.1 h), fun h h3 => h2.2 h (h1.2 (h2.1 h) h3)⟩)
          (fun a y dy b hy => ⟨hbackCall a y _ b hy, fun hb ha => (ih a y _ b ha hy hb).1⟩)
          r deps pkg pkg1 _ s3 hloop).2 hA3 hstart
        obtain ⟨l0, hwo, hsame⟩ :=
          walkOf_of_logged s2 s3 r _ (publishDeps_traceSub env n r deps pkg _ _ s3 hloop) hA3
        have hnotB : ¬ B r := by
          intro hb
          obtain ⟨z, ⟨l, ch, hl, hch0, hsk, hz⟩, hBz⟩ := hB r hb
          have hch : ch ∈ deps := by
            rw [hl] at hwo
            simp only [Except.ok.injEq] at hwo
            subst hwo
            exact (hsame ch).2 hch0
          exact publishDeps_blocked (GxPublishGoPackage env n)
            (fun a => WalkerAgrees walkOf a.trace)
            (fun a => ∀ b2, B b2 → cacheGet a.i.pkgs b2 = none)
            hbackCall
            (fun a y oy b ha hy hb => (ih a y oy b ha hy hb).1) r ch hsk
            (fun a d b ha hy hb => (ih a ch _ b ha hy hb).2 z hz hBz d rfl)
            deps hch pkg pkg1 _ s3 hstart hA3 hloop
        refine ⟨?_, fun r2 hr2 hb => ?_⟩
        · rcases finishPublish_cases env r _ _ pkg1 s3 t o hfin with ⟨d, -, hi⟩ | ⟨-, hi⟩
          · intro b hb
            have hne : b ≠ r := by rintro rfl; exact hnotB hb
            rw [hi]; simp only
            rw [cacheGet_cacheSet_ne _ _ _ _ hne]
            exact h3 b hb
          · intro b hb; rw [hi]; exact h3 b hb
        · rw [hr] at hr2; simp only [Option.some.injEq] at hr2; subst hr2
          exact absurd hb hnotB

/-- A cache entry that appears during the loop was inserted below some child that the
loop does not skip. -/
theorem publishDeps_inserted {W : Type} (env : Env W)
    (walkOf : String → Except GoError (List String)) (n : Nat)
    (ih : ∀ (s : State W) (x : String) (o : Outcome Dependency) (t : State W) (k : String),
      GxPublishGoPackage env n s x = some (o, t) → WalkerAgrees walkOf t.trace →
      cacheGet s.i.pkgs k = none → cacheGet t.i.pkgs k ≠ none →
      ∃ z, getBaseDVCS x = some z ∧ Chain walkOf (fun b => cacheGet s.i.pkgs b = none) k z)
    (r k : String) (deps : List String) (pkg : Package) (s : State W)
    (o : Outcome Package) (t : State W)
    (h : publishDeps (GxPublishGoPackage env n) r deps pkg s = some (o, t))
    (hA : WalkerAgrees walkOf t.trace)
    (hk : cacheGet s.i.pkgs k = none) (hk2 : cacheGet t.i.pkgs k ≠ none) :
    ∃ ch z, ch ∈ deps ∧ stringsHasPrefix ch r = false ∧ getBaseDVCS ch = some z ∧
      Chain walkOf (fun b => cacheGet s.i.pkgs b = none) k z := by
  induction deps generalizing pkg s with
  | nil =>
    simp only [publishDeps, Option.some.injEq, Prod.mk.injEq] at h
    rw [← h.2] at hk2; exact absurd hk hk2
  | cons child rest ihl =>
    simp only [publishDeps] at h
    by_cases hc : stringsHasPrefix child r = true
    · rw [if_pos hc] at h
      obtain ⟨ch, z, hm, h1, h2, h3⟩ := ihl pkg s h hk
      exact ⟨ch, z, List.mem_cons_of_mem _ hm, h1, h2, h3⟩
    · rw [if_neg hc] at h
      simp only [Bool.not_eq_true] at hc
      have one : ∀ oc s1, GxPublishGoPackage env n s child = some (oc, s1) →
          WalkerAgrees walkOf s1.trace → cacheGet s1.i.pkgs k ≠ none →
          ∃ ch z, ch ∈ child :: rest ∧ stringsHasPrefix ch r = false ∧ getBaseDVCS ch = some z ∧
            Chain walkOf (fun b => cacheGet s.i.pkgs b = none) k z := by
        intro oc s1 hp hA1 hk1
        obtain ⟨z, hz, hch⟩ := ih s child oc s1 k hp hA1 hk hk1
        exact ⟨child, z, List.mem_cons_self _ _, hc, hz, hch⟩
      split at h
      · simp at h
      · next err s1 hp =>
        simp only [Option.some.injEq, Prod.mk.injEq] at h
        rw [← h.2] at hk2 hA
        exact one _ _ hp hA hk2
      · next s1 hp =>
        simp only [Option.some.injEq, Prod.mk.injEq] at h
        rw [← h.2] at hk2 hA
        exact one _ _ hp hA hk2
      · next d s1 hp =>
        by_cases hk1 : cacheGet s1.i.pkgs k = none
        · obtain ⟨ch, z, hm, h1, h2, h3⟩ := ihl _ s1 h hk1
          refine ⟨ch, z, List.mem_cons_of_mem _ hm, h1, h2, h3.mono ?_⟩
          intro b hb
          by_contra hne
          obtain ⟨db, hdb⟩ := Option.ne_none_iff_exists'.1 hne
          have := publish_cacheLe env n s child _ s1 hp b db hdb
          rw [hb] at this; simp at this
        · exact one _ _ hp
            (WalkerAgrees.back (publishDeps_traceSub env n r rest _ s1 _ t h) hA) hk1

/-- A cache entry that appears during a call was inserted along a chain of edges from the
call's grouped path through grouped paths that were absent from the cache. -/
theorem publish_inserted {W : Type} (env : Env W)
    (walkOf : String → Except GoError (List String)) (n : Nat) :
    ∀ (s : State W) (x : String) (o : Outcome Dependency) (t : State W) (k : String),
      GxPublishGoPackage env n s x = some (o, t) → WalkerAgrees walkOf t.trace →
      cacheGet s.i.pkgs k = none → cacheGet t.i.pkgs k ≠ none →
      ∃ z, getBaseDVCS x = some z ∧ Chain walkOf (fun b => cacheGet s.i.pkgs b = none) k z := by
  induction n with
  | zero => intro s x o t k h; simp [GxPublishGoPackage] at h
  | succ n ih =>
    intro s x o t k h hA hk hk2
    simp only [GxPublishGoPackage] at h
    have quietNo : ∀ u : State W, Quiet s u → cacheGet u.i.pkgs k = none := by
      intro u hq; rw [hq.1]; exact hk
    rcases publishBody_inv _ _ env s x o t h with ⟨-, -, rfl⟩ | ⟨r, d, -, -, -, rfl⟩ |
      ⟨r, hr, hmiss, ⟨-, hq⟩ | ⟨s1, hq1, -, htail⟩⟩
    · exact absurd hk hk2
    · exact absurd hk hk2
    · exact absurd (quietNo t hq) hk2
    · refine ⟨r, hr, ?_⟩
      have viaLoop : ∀ (pkg : Package) (s2 : State W) (deps : List String)
          (op : Outcome Package) (u : State W), Quiet s1 s2 →
          publishDeps (GxPublishGoPackage env n) r deps pkg (s2.log (.depsToVendor r (.ok deps)))
            = some (op, u) →
          WalkerAgrees walkOf u.trace → cacheGet u.i.pkgs k ≠ none →
          Chain walkOf (fun b => cacheGet s.i.pkgs b = none) k r := by
        intro pkg s2 deps op u hq2 hloop hAu hku
        have hq := hq1.qtrans (hq2.qtrans
          (quiet_log1 s2 (.depsToVendor r (.ok deps)) (by intro _; rfl)))
        obtain ⟨ch, z, hm, hsk, hz, hchain⟩ := publishDeps_inserted env walkOf n ih r k deps pkg _
          op u hloop hAu (quietNo _ hq) hku
        obtain ⟨l0, hwo, hsame⟩ :=
          walkOf_of_logged s2 u r _ (publishDeps_traceSub env n r deps pkg _ _ u hloop) hAu
        refine Chain.step r z hmiss ⟨l0, ch, hwo, (hsame ch).1 hm, hsk, hz⟩ (hchain.mono ?_)
        intro b hb
        have hi : (s2.log (Event.depsToVendor r (.ok deps))).i = s.i := hq.1
        rw [hi] at hb
        exact hb
      rcases publishTail_inv _ _ env s1 r o t htail with ⟨-, hq⟩ |
        ⟨pkg, s2, deps, hq2, -, hw, ⟨-, op, -, hloop⟩ | ⟨pkg1, s3, hloop, hfin⟩⟩
      · exact absurd (quietNo t (hq1.qtrans hq)) hk2
      · exact viaLoop pkg s2 deps op t hq2 hloop hA hk2
      · have hf := finishPublish_traceSub env r (env.pathJoin [s1.i.gopath, "src", r])
          (env.pathJoin [env.pathJoin [s1.i.gopath, "src", r], env.PkgFileName]) pkg1 s3
        rw [hfin] at hf
        by_cases hk3 : cacheGet s3.i.pkgs k = none
        · rcases finishPublish_cases env r _ _ pkg1 s3 t o hfin with ⟨d, -, hi⟩ | ⟨-, hi⟩
          · by_cases hkr : k = r
            · subst hkr; exact Chain.here hk
            · rw [hi] at hk2; simp only at hk2
              rw [cacheGet_cacheSet_ne _ _ _ _ hkr] at hk2
              exact absurd hk3 hk2
          · rw [hi] at hk2; exact absurd hk3 hk2
        · exact viaLoop pkg s2 deps _ s3 hq2 hloop (WalkerAgrees.back hf hA) hk3

/-- A loop for the grouped path `r` that succeeds leaves `r` absent from the cache, when
the recorded walker results are those of `walkOf`: a successful call for `r` below one of
the children would have to contain a successful call for that child again. -/
theorem publishDeps_root_absent {W : Type} (env : Env W)
    (walkOf : String → Except GoError (List String)) (n : Nat)
    (r : String) (deps l0 : List String) (pkg pkg1 : Package) (s0 s3 : State W)
    (hwo : walkOf r = .ok l0) (hsame : ∀ x, x ∈ deps ↔ x ∈ l0)
    (hmiss : cacheGet s0.i.pkgs r = none)
    (hloop : publishDeps (GxPublishGoPackage env n) r deps pkg s0 = some (.ok pkg1, s3))
    (hA : WalkerAgrees walkOf s3.trace) : cacheGet s3.i.pkgs r = none := by
  by_contra hne
  obtain ⟨ch, z, hm, hsk, hz, hchain⟩ := publishDeps_inserted env walkOf n
    (publish_inserted env walkOf n) r r deps pkg s0 _ s3 hloop hA hmiss hne
  have hB : ∀ b, Chain walkOf (fun b2 => cacheGet s0.i.pkgs b2 = none) r b →
      ∃ z2, Edge walkOf b z2 ∧ Chain walkOf (fun b2 => cacheGet s0.i.pkgs b2 = none) r z2 := by
    intro b hb
    cases hb with
    | here _ => exact ⟨z, ⟨l0, ch, hwo, (hsame ch).1 hm, hsk, hz⟩, hchain⟩
    | step _ z2 _ he hc => exact ⟨z2, he, hc⟩
  have hblk := closed_set_blocks env walkOf
    (fun b => Chain walkOf (fun b2 => cacheGet s0.i.pkgs b2 = none) r b) hB n
  exact publishDeps_blocked (GxPublishGoPackage env n)
    (fun a => WalkerAgrees walkOf a.trace)
    (fun a => ∀ b2, Chain walkOf (fun b3 => cacheGet s0.i.pkgs b3 = none) r b2 →
      cacheGet a.i.pkgs b2 = none)
    (fun a y oy b hy hb => WalkerAgrees.back (publish_traceSub env n a y oy b hy) hb)
    (fun a y oy b ha hy hb => (hblk a y oy b ha hy hb).1) r ch hsk
    (fun a d b ha hy hb => (hblk a ch _ b ha hy hb).2 z hz hchain d rfl)
    deps hm pkg pkg1 s0 s3 (fun b hb => hb.miss) hA hloop

theorem Quiet.oncePublished {W : Type} {s t : State W} (hq : Quiet s t)
    (h : OncePublished s) : OncePublished t := by
  intro k
  rw [hq.1, hq.2.1 k]
  exact h k

/-- A successful call whose recorded walker results are those of `walkOf` keeps the run
invariant. -/
theorem publish_oncePublished {W : Type} (env : Env W)
    (walkOf : String → Except GoError (List String)) (n : Nat) :
    ∀ (s : State W) (x : String) (d : Dependency) (t : State W),
      GxPublishGoPackage env n s x = some (.ok d, t) → WalkerAgrees walkOf t.trace →
      OncePublished s → OncePublished t := by
  induction n with
  | zero => intro s x d t h; simp [GxPublishGoPackage] at h
  | succ n ih =>
    intro s x d t h hA hinv
    simp only [GxPublishGoPackage] at h
    rcases publishBody_inv _ _ env s x _ t h with ⟨-, -, rfl⟩ | ⟨r, d2, -, -, -, rfl⟩ |
      ⟨r, hr, hmiss, ⟨hno, -⟩ | ⟨s1, hq1, -, htail⟩⟩
    · exact hinv
    · exact hinv
    · exact absurd rfl (hno d)
    · rcases publishTail_inv _ _ env s1 r _ t htail with ⟨hno, -⟩ |
        ⟨pkg, s2, deps, hq2, -, hw, ⟨hno, -⟩ | ⟨pkg1, s3, hloop, hfin⟩⟩
      · exact absurd rfl (hno d)
      · exact absurd rfl (hno d)
      · have hq := hq1.qtrans (hq2.qtrans
          (quiet_log1 s2 (.depsToVendor r (.ok deps)) (by intro _; rfl)))
        have hinv0 := hq.oncePublished hinv
        have hf := finishPublish_traceSub env r (env.pathJoin [s1.i.gopath, "src", r])
          (env.pathJoin [env.pathJoin [s1.i.gopath, "src", r], env.PkgFileName]) pkg1 s3
        rw [hfin] at hf
        have hA3 : WalkerAgrees walkOf s3.trace := WalkerAgrees.back hf hA
        have hinv3 : OncePublished s3 := (publishDeps_ok_rel (GxPublishGoPackage env n)
          (fun a b => (WalkerAgrees walkOf b.trace → WalkerAgrees walkOf a.trace) ∧
            (WalkerAgrees walkOf b.trace → OncePublished a → OncePublished b))
          (fun _ => ⟨fun h => h, fun _ h => h⟩)
          (fun _ _ _ h1 h2 => ⟨fun h => h1.1 (h2.1 h), fun h h3 => h2.2 h (h1.2 (h2.1 h) h3)⟩)
          (fun a y dy b hy =>
            ⟨fun hb => WalkerAgrees.back (publish_traceSub env n a y _ b hy) hb,
              fun hb ha => ih a y dy b hy hb ha⟩)
          r deps pkg pkg1 _ s3 hloop).2 hA3 hinv0
        have hi0 : (s2.log (Event.depsToVendor r (.ok deps))).i = s.i := hq.1
        obtain ⟨l0, hwo, hsame⟩ :=
          walkOf_of_logged s2 s3 r _ (publishDeps_traceSub env n r deps pkg _ _ s3 hloop) hA3
        have hmiss3 : cacheGet s3.i.pkgs r = none :=
          publishDeps_root_absent env walkOf n r deps l0 pkg pkg1 _ s3 hwo hsame
            (by rw [hi0]; exact hmiss) hloop hA3
        obtain ⟨hi, -, -, hcount⟩ := finishPublish_ok env r _ _ pkg1 s3 t d hfin
        intro k
        rw [hcount k, hi]
        simp only
        by_cases hkr : r = k
        · subst hkr
          rw [(hinv3 r).2 hmiss3, cacheGet_cacheSet_self]
          simp
        · have hkr2 : k ≠ r := fun e => hkr e.symm
          rw [cacheGet_cacheSet_ne _ _ _ _ hkr2]
          simpa [hkr] using hinv3 k

theorem runOk_oncePublished {W : Type} (env : Env W)
    (walkOf : String → Except GoError (List String)) (s t : State W)
    (hrun : RunOk env s t) :
    OncePublished s → WalkerAgrees walkOf t.trace → OncePublished t := by
  induction hrun with
  | start => intro h _; exact h
  | call t u n x d _ hc ih =>
    intro h hA
    exact publish_oncePublished env walkOf n t x d u hc hA
      (ih h (WalkerAgrees.back (publish_traceSub env n t x _ u hc) hA))

/-- A trace in which the walker gave the same set each time agrees with one function. -/
theorem walkerStable_agrees (tr : List Event) (h : WalkerStable tr) :
    ∃ walkOf, WalkerAgrees walkOf tr := by
  classical
  refine ⟨fun r => if hr : ∃ res, Event.depsToVendor r res ∈ tr then hr.choose else .ok [], ?_⟩
  intro r res hmem
  have hr : ∃ res, Event.depsToVendor r res ∈ tr := ⟨res, hmem⟩
  simp only [hr, dif_pos]
  have h2 := h _ hmem _ hr.choose_spec
  simpa [walkConflict] using h2

theorem runOk_at_most_once {W : Type} (env : Env W)
    (s t : State W) (_hcache : s.i.pkgs = []) (htrace : s.trace = [])
    (hrun : RunOk env s t) (hstable : WalkerStable t.trace) (k : String) :
    publishCount k t.trace ≤ 1 := by
  obtain ⟨walkOf, hA⟩ := walkerStable_agrees t.trace hstable
  have h0 : OncePublished s := by
    intro k2; rw [htrace]; simp [publishCount]
  exact (runOk_oncePublished env walkOf s t hrun h0 hA k).1

theorem Visited.vtrans {W : Type} {env : Env W} {gopath : String} {w : W} {a b c : String}
    (h1 : Visited env gopath w a b) (h2 : Visited env gopath w b c) :
    Visited env gopath w a c := by
  induction h2 with
  | root => exact h1
  | sub d name ents _ hr hm hs ih => exact Visited.sub d name ents ih hr hm hs

theorem mem_foldl_setInsert (out rdeps : List String) (x : String)
    (h : x ∈ out.foldl setInsert rdeps) : x ∈ rdeps ∨ x ∈ out := by
  induction out generalizing rdeps with
  | nil => exact Or.inl h
  | cons o os ih =>
    simp only [List.foldl_cons] at h
    rcases ih _ h with h1 | h1
    · unfold setInsert at h1
      split at h1
      · exact Or.inl h1
      · rcases List.mem_append.1 h1 with h2 | h2
        · exact Or.inl h2
        · simp only [List.mem_singleton] at h2
          exact Or.inr (by simp [h2])
    · exact Or.inr (List.mem_cons_of_mem _ h1)

theorem mem_directDeps (path : String) (imports : List String) (x : String)
    (h : x ∈ directDeps path imports) :
    x ∈ imports ∧ pathIsNotStdlib x = true ∧ stringsHasPrefix x path = false := by
  have gen : ∀ (imports acc : List String),
      x ∈ imports.foldl (fun rdeps child =>
        if pathIsNotStdlib child && !stringsHasPrefix child path then setInsert rdeps child
        else rdeps) acc →
      x ∈ acc ∨ (x ∈ imports ∧ pathIsNotStdlib x = true ∧ stringsHasPrefix x path = false) := by
    intro imports
    induction imports with
    | nil => intro acc h; exact Or.inl h
    | cons c cs ih =>
      intro acc h
      simp only [List.foldl_cons] at h
      rcases ih _ h with h1 | ⟨h1, h2, h3⟩
      · split at h1
        · next hc =>
          unfold setInsert at h1
          split at h1
          · exact Or.inl h1
          · rcases List.mem_append.1 h1 with h2 | h2
            · exact Or.inl h2
            · simp only [List.mem_singleton] at h2
              subst h2
              simp only [Bool.and_eq_true, Bool.not_eq_true'] at hc
              exact Or.inr ⟨by simp, hc.1, hc.2⟩
        · exact Or.inl h1
      · exact Or.inr ⟨List.mem_cons_of_mem _ h1, h2, h3⟩
  rcases gen imports [] h with h1 | h1
  · simp at h1
  · exact h1

theorem walkDirents_mem {W : Type} (walk : String → Option (Except GoError (List String)))
    (env : Env W) (path : String) (P : String → Prop)
    (ents : List (String × Bool)) (rdeps all : List String)
    (hr : ∀ x ∈ rdeps, P x)
    (hw : ∀ name out, (name, true) ∈ ents → skipDir name = false →
      walk (env.filepathJoin [path, name]) = some (.ok out) → ∀ x ∈ out, P x)
    (h : walkDirents walk env path ents rdeps = some (.ok all)) : ∀ x ∈ all, P x := by
  induction ents generalizing rdeps with
  | nil =>
    simp only [walkDirents, Option.some.injEq, Except.ok.injEq] at h
    subst h; exact hr
  | cons e es ih =>
    obtain ⟨name, isDir⟩ := e
    simp only [walkDirents] at h
    have hw2 : ∀ name out, (name, true) ∈ es → skipDir name = false →
        walk (env.filepathJoin [path, name]) = some (.ok out) → ∀ x ∈ out, P x :=
      fun n o hm => hw n o (List.mem_cons_of_mem _ hm)
    split at h
    · exact ih rdeps hr hw2 h
    · next hc =>
      simp only [Bool.or_eq_true, Bool.not_eq_true', not_or, Bool.not_eq_false,
        Bool.not_eq_true] at hc
      obtain ⟨hd, hsk⟩ := hc
      subst hd
      split at h
      · simp at h
      · simp at h
      · next out ho =>
        refine ih _ ?_ hw2 h
        intro x hx
        rcases mem_foldl_setInsert out rdeps x hx with h1 | h1
        · exact hr x h1
        · exact hw name out (List.mem_cons_self _ _) hsk ho x h1

/-! ## The claims -/

set_option maxRecDepth 100000

/-- Claim C2: in a run that starts with an empty cache and an empty trace and consists of
successful `Publish` calls, and in which the walker returned the same result for a given
grouped path each time it was invoked (`WalkerStable` on the trace of the run), the
publish backend is invoked at most once for every grouped path. In the diamond
(`a` imports `b` and `c`, both import `d`) the run succeeds, its walker results are
stable, `d` is published exactly once, the manifests saved for `b` and for `c` hold the
handle of that publication, and the manifest saved for `a` holds exactly the two handles
of `b` and `c`. -/
theorem publish_backend_at_most_once :
    (∀ (W : Type) (env : Env W) (s t : State W), s.i.pkgs = [] → s.trace = [] →
      RunOk env s t → WalkerStable t.trace → ∀ k, publishCount k t.trace ≤ 1) ∧
    GxPublishGoPackage diamondEnv 4 startState "example.org/a"
      = some (.ok (handleOf "example.org/a"), diamondFinal) ∧
    WalkerStable diamondFinal.trace ∧
    publishCount "example.org/d" diamondFinal.trace = 1 ∧
    Event.savePackageFile (manifestOf "example.org/b" [handleOf "example.org/d"])
      "/go/src/example.org/b/package.json" ∈ diamondFinal.trace ∧
    Event.savePackageFile (manifestOf "example.org/c" [handleOf "example.org/d"])
      "/go/src/example.org/c/package.json" ∈ diamondFinal.trace ∧
    Event.savePackageFile
      (manifestOf "example.org/a" [handleOf "example.org/b", handleOf "example.org/c"])
      "/go/src/example.org/a/package.json" ∈ diamondFinal.trace :=
  ⟨fun _ env s t hc ht hrun hst k => runOk_at_most_once env s t hc ht hrun hst k,
    by decide, by decide, by decide, by decide, by decide, by decide⟩

/-- Witness of C2: the diamond run in `fetchDiamondEnv`, where the walker finds a package
only after it has been fetched (its result for `example.org/d` differs between the worlds
before and after the fetch), satisfies the hypotheses of the general statement. -/
theorem publish_backend_at_most_once_witness :
    depsToVendorForPackage 1 fetchDiamondEnv "/go" [] "example.org/d"
      ≠ depsToVendorForPackage 1 fetchDiamondEnv "/go" ["example.org/d"] "example.org/d" ∧
    fetchStart.i.pkgs = [] ∧ fetchStart.trace = [] ∧
    RunOk fetchDiamondEnv fetchStart fetchFinal ∧
    WalkerStable fetchFinal.trace ∧
    publishCount "example.org/d" fetchFinal.trace ≤ 1 :=
  have hrun : RunOk fetchDiamondEnv fetchStart fetchFinal :=
    RunOk.call fetchStart fetchFinal 4 "example.org/a" (handleOf "example.org/a")
      RunOk.start (by decide)
  ⟨by decide, rfl, rfl, hrun, by decide,
    publish_backend_at_most_once.1 (List String) fetchDiamondEnv fetchStart fetchFinal
      rfl rfl hrun (by decide) "example.org/d"⟩

/-- Claim C3: a call with a cache miss whose fetch is tolerated, whose manifest loads and
whose walker returns `pre ++ child :: post`: when the children `pre` are processed and the
recursive call for the non-skipped `child` returns the error `e` in state `s4`, the call
returns exactly `e` in exactly `s4`. The parent therefore does nothing after the failure:
no event is added to the trace (no manifest save, no backend call for the parent) and
the cache is the one the child left (no entry is written for the parent). -/
theorem publish_child_error_aborts {W : Type} (env : Env W) (n : Nat) (s s2 s3 s4 : State W)
    (path r child : String) (pre post : List String) (pkg pkg1 : Package) (e : GoError)
    (hr : getBaseDVCS path = some r) (hmiss : cacheGet s.i.pkgs r = none)
    (hget : ∀ err, (GoGet env r s).1 = some err →
      stringsContains err.Error "no buildable Go source files" = true)
    (hload : loadOrInit env r (pkgDir env s r) (pkgFile env s r) (GoGet env r s).2 = (.ok pkg, s2))
    (hwalk : depsToVendorForPackage n env s2.i.gopath s2.world r
      = some (.ok (pre ++ child :: post)))
    (hpre : publishDeps (GxPublishGoPackage env n) r pre pkg
      (s2.log (.depsToVendor r (.ok (pre ++ child :: post)))) = some (.ok pkg1, s3))
    (hskip : stringsHasPrefix child r = false)
    (hchild : GxPublishGoPackage env n s3 child = some (.error e, s4)) :
    GxPublishGoPackage env (n + 1) s path = some (.error e, s4) := by
  have hloop : ∀ (pre : List String) (pkg : Package) (s0 : State W),
      publishDeps (GxPublishGoPackage env n) r pre pkg s0 = some (.ok pkg1, s3) →
      publishDeps (GxPublishGoPackage env n) r (pre ++ child :: post) pkg s0
        = some (.error e, s4) := by
    intro pre
    induction pre with
    | nil =>
      intro pkg s0 h
      simp only [publishDeps, Option.some.injEq, Prod.mk.injEq, Outcome.ok.injEq] at h
      obtain ⟨rfl, rfl⟩ := h
      simp [publishDeps, hskip, hchild]
    | cons c cs ih =>
      intro pkg s0 h
      simp only [publishDeps, List.cons_append] at h ⊢
      split
      · next hc => rw [if_pos hc] at h; exact ih _ _ h
      · next hc =>
        rw [if_neg hc] at h
        split at h
        · simp at h
        · simp at h
        · simp at h
        · next d s1 hp => exact ih _ _ h
  have hi : (GoGet env r s).2.i = s.i := (quiet_GoGet env r s).1
  have htail : publishTail (GxPublishGoPackage env n) (depsToVendorForPackage n env) env
      (GoGet env r s).2 r = some (.error e, s4) := by
    unfold publishTail
    simp only [hi]
    unfold pkgDir pkgFile pkgDir at hload
    rw [hload]
    simp only [hwalk, hloop pre pkg _ hpre]
  simp only [GxPublishGoPackage, publishBody, hr, hmiss]
  rcases hg : GoGet env r s with ⟨_ | err, s1⟩
  · rw [hg] at htail; simpa using htail
  · rw [hg] at htail hget
    simp only [hget err rfl, Bool.not_true]
    simpa using htail

/-- Witness of C3: in `failEnv` the backend fails for the child `example.org/bar` of
`example.org/foo`; the call for `example.org/foo` returns that error in the state the
child left. -/
theorem publish_child_error_aborts_witness :
    cacheGet startState.i.pkgs "example.org/foo" = none ∧
    stringsHasPrefix "example.org/bar" "example.org/foo" = false ∧
    GxPublishGoPackage failEnv 2 failBefore "example.org/bar"
      = some (.error (.other "publish failed"), failAfter) ∧
    GxPublishGoPackage failEnv 3 startState "example.org/foo"
      = some (.error (.other "publish failed"), failAfter) :=
  ⟨by decide, by decide, by decide,
    publish_child_error_aborts failEnv 2 startState
      { i := startState.i, world := (),
        trace := [.goGet "example.org/foo",
                  .loadPackageFile "/go/src/example.org/foo/package.json"] }
      failBefore failAfter "example.org/foo" "example.org/foo" "example.org/bar" [] []
      (manifestOf "example.org/foo" []) (manifestOf "example.org/foo" [])
      (.other "publish failed")
      (by decide) (by decide) (fun _ h => Option.noConfusion h) (by decide) (by rfl)
      (by decide) (by decide) (by decide)⟩

/-- Claim C4: a successful call with a cache miss loads (or initialises) a manifest `pkg`,
gets `deps` from the walker and collects the handles `hs` returned by the recursive calls
for the non-skipped children, one per such child in the order of `deps`; the manifest it
saves and the manifest it submits to the backend are both `pkg` with the dependency list
`pkg.Dependencies ++ hs`, and between the save and the publication only rewriting events
occur. In the example run (`example.org/foo` imports `example.org/bar` and `fmt`) `fmt`
is never processed, `bar` is published first, and the manifest of `foo` that is saved and
published holds exactly one dependency, the handle of `bar`. -/
theorem publish_manifest_dependencies :
    (∀ (W : Type) (env : Env W) (n : Nat) (s t : State W) (path r : String) (d : Dependency),
      getBaseDVCS path = some r → cacheGet s.i.pkgs r = none →
      GxPublishGoPackage env (n + 1) s path = some (.ok d, t) →
      ∃ pkg s2 deps hs s3 mid,
        loadOrInit env r (pkgDir env s r) (pkgFile env s r) (GoGet env r s).2 = (.ok pkg, s2) ∧
        depsToVendorForPackage n env s2.i.gopath s2.world r = some (.ok deps) ∧
        childHandles (GxPublishGoPackage env n) r deps (s2.log (.depsToVendor r (.ok deps)))
          = some (hs, s3) ∧
        hs.length = (deps.filter (fun ch => !stringsHasPrefix ch r)).length ∧
        t.trace = s3.trace
          ++ [.savePackageFile { pkg with Dependencies := pkg.Dependencies ++ hs }
                (pkgFile env s r)]
          ++ mid
          ++ [.publishPackage r (pkgDir env s r)
                { pkg with Dependencies := pkg.Dependencies ++ hs }] ∧
        (∀ ev ∈ mid, (∃ p, ev = .filepathAbs p) ∨ (∃ p, ev = .rewriteImports p)) ∧
        d.Name = pkg.Name ∧ d.Version = pkg.Version) ∧
    GxPublishGoPackage fooEnv 3 startState "example.org/foo"
      = some (.ok (handleOf "example.org/foo"), fooFinal) ∧
    fooFinal.trace =
      [.goGet "example.org/foo",
       .loadPackageFile "/go/src/example.org/foo/package.json",
       .depsToVendor "example.org/foo" (.ok ["example.org/bar"]),
       .goGet "example.org/bar",
       .loadPackageFile "/go/src/example.org/bar/package.json",
       .depsToVendor "example.org/bar" (.ok []),
       .savePackageFile (manifestOf "example.org/bar" []) "/go/src/example.org/bar/package.json",
       .publishPackage "example.org/bar" "/go/src/example.org/bar"
         (manifestOf "example.org/bar" []),
       .savePackageFile (manifestOf "example.org/foo" [handleOf "example.org/bar"])
         "/go/src/example.org/foo/package.json",
       .publishPackage "example.org/foo" "/go/src/example.org/foo"
         (manifestOf "example.org/foo" [handleOf "example.org/bar"])] :=
  ⟨fun _ env n s t path r d hr hmiss hok =>
      publish_manifest_general env n s t path r d hr hmiss hok,
    by decide, by decide⟩

/-- Witness of C4: the example run satisfies the hypotheses of the general statement, so
its saved and published manifest is the loaded one extended by the collected handles. -/
theorem publish_manifest_dependencies_witness :
    getBaseDVCS "example.org/foo" = some "example.org/foo" ∧
    cacheGet startState.i.pkgs "example.org/foo" = none ∧
    GxPublishGoPackage fooEnv (2 + 1) startState "example.org/foo"
      = some (.ok (handleOf "example.org/foo"), fooFinal) ∧
    ∃ pkg s2 deps hs s3 mid,
      loadOrInit fooEnv "example.org/foo" (pkgDir fooEnv startState "example.org/foo")
        (pkgFile fooEnv startState "example.org/foo")
        (GoGet fooEnv "example.org/foo" startState).2 = (.ok pkg, s2) ∧
      depsToVendorForPackage 2 fooEnv s2.i.gopath s2.world "example.org/foo"
        = some (.ok deps) ∧
      childHandles (GxPublishGoPackage fooEnv 2) "example.org/foo" deps
        (s2.log (.depsToVendor "example.org/foo" (.ok deps))) = some (hs, s3) ∧
      hs.length = (deps.filter (fun ch => !stringsHasPrefix ch "example.org/foo")).length ∧
      fooFinal.trace = s3.trace
        ++ [.savePackageFile { pkg with Dependencies := pkg.Dependencies ++ hs }
              (pkgFile fooEnv startState "example.org/foo")]
        ++ mid
        ++ [.publishPackage "example.org/foo" (pkgDir fooEnv startState "example.org/foo")
              { pkg with Dependencies := pkg.Dependencies ++ hs }] ∧
      (∀ ev ∈ mid, (∃ p, ev = .filepathAbs p) ∨ (∃ p, ev = .rewriteImports p)) ∧
      (handleOf "example.org/foo").Name = pkg.Name ∧
      (handleOf "example.org/foo").Version = pkg.Version :=
  ⟨by decide, by decide, by decide,
    publish_manifest_dependencies.1 Unit fooEnv 2 startState fooFinal "example.org/foo"
      "example.org/foo" (handleOf "example.org/foo") (by decide) (by decide) (by decide)⟩

/-- Claim C5, evaluated at the failing input: for `golang.org/x/a/b/c` the code returns
`golang.org/x/a`, the first three pieces, while the reference definition with depth 4
gives `golang.org/x/a/b`. -/
theorem getBaseDVCS_golang_x_cut_at_three :
    getBaseDVCS "golang.org/x/a/b/c" = some "golang.org/x/a" ∧
    groupRootSpec "golang.org/x/a/b/c" = "golang.org/x/a/b" ∧
    getBaseDVCS "golang.org/x/a/b/c" ≠ some (groupRootSpec "golang.org/x/a/b/c") := by
  decide

/-- Claim C6: `getBaseDVCS` is idempotent wherever it returns: if it maps `p` to `r`, it
maps `r` to `r`. -/
theorem getBaseDVCS_idempotent (p r : String) (h : getBaseDVCS p = some r) :
    getBaseDVCS r = some r := by
  rcases getBaseDVCS_cases p r h with rfl | ⟨p0, p1, p2, tl, hparts, rfl⟩
  · exact h
  · apply getBaseDVCS_three
    intro q hq
    apply stringsSplit_no_sep '/' p q
    rw [hparts]
    simp only [List.mem_cons, List.mem_singleton, List.not_mem_nil, or_false] at hq ⊢
    rcases hq with rfl | rfl | rfl <;> simp

/-- Witness of C6: `github.com/a/b/c/d` is grouped to `github.com/a/b`, a fixed point. -/
theorem getBaseDVCS_idempotent_witness :
    getBaseDVCS "github.com/a/b/c/d" = some "github.com/a/b" ∧
    getBaseDVCS "github.com/a/b" = some "github.com/a/b" :=
  ⟨by decide, getBaseDVCS_idempotent "github.com/a/b/c/d" "github.com/a/b" (by decide)⟩

/-- Claim C7: `pathIsNotStdlib path` is true exactly when the part of `path` before its
first `/` (all of `path` when there is none) contains the character `.`; it is false for
`fmt` and `net/http` and true for `github.com/x/y`. -/
theorem pathIsNotStdlib_iff_dot_in_first_piece :
    (∀ path : String, pathIsNotStdlib path = true ↔
      '.' ∈ path.data.takeWhile (fun c => decide (c ≠ '/'))) ∧
    pathIsNotStdlib "fmt" = false ∧ pathIsNotStdlib "net/http" = false ∧
    pathIsNotStdlib "github.com/x/y" = true :=
  ⟨pathIsNotStdlib_iff, by decide, by decide, by decide⟩

/-- Counterexample to C8: the unit in the subdirectory `cmd` of `github.com/a/b` imports
`github.com/a/b` and `github.com/a/b/util`; the walker called for `github.com/a/b`
returns both, the root itself and a path that has the root as a prefix. -/
theorem walker_returns_root_from_subdirectory :
    depsToVendorForPackage 2 selfImportEnv "/go" () "github.com/a/b"
      = some (.ok ["github.com/a/b", "github.com/a/b/util"]) ∧
    stringsHasPrefix "github.com/a/b" "github.com/a/b" = true ∧
    stringsHasPrefix "github.com/a/b/util" "github.com/a/b" = true :=
  ⟨by rfl, by decide, by decide⟩

/-- Claim C8 as amended: every path the walker returns for `root` is foreign and is
one of the imports of the unit of some visited directory `d` (`root` itself or a nested directory that
is not excluded) that does not have the path of `d` as a string prefix. For `d = root`
this excludes the imports with prefix `root`; for a nested `d` the test is made against
the path of `d`, not against `root`. -/
theorem walker_members {W : Type} (env : Env W)
    (hrange : ∀ l x, x ∈ env.mapRange l → x ∈ l) (gopath : String) (w : W) (n : Nat) :
    ∀ (root : String) (out : List String),
      depsToVendorForPackage n env gopath w root = some (.ok out) →
      ∀ o ∈ out, pathIsNotStdlib o = true ∧
        ∃ d imports, Visited env gopath w root d ∧ env.buildImport d w = .ok imports ∧
          o ∈ imports ∧ stringsHasPrefix o d = false := by
  induction n with
  | zero => intro root out h; simp [depsToVendorForPackage] at h
  | succ n ih =>
    intro root out h o ho
    simp only [depsToVendorForPackage] at h
    split at h
    · simp at h
    · next rdeps hdirect =>
      split at h
      · simp at h
      · next ents hents =>
        split at h
        · simp at h
        · simp at h
        · next all hall =>
          simp only [Option.some.injEq, Except.ok.injEq] at h
          subst h
          refine walkDirents_mem _ env root
            (fun o => pathIsNotStdlib o = true ∧
              ∃ d imports, Visited env gopath w root d ∧ env.buildImport d w = .ok imports ∧
                o ∈ imports ∧ stringsHasPrefix o d = false)
            ents rdeps all ?_ ?_ hall o (hrange _ _ ho)
          · intro x hx
            split at hdirect
            · next err _ =>
              split at hdirect
              · simp only [Except.ok.injEq] at hdirect
                subst hdirect; simp at hx
              · simp at hdirect
            · next imports himp =>
              simp only [Except.ok.injEq] at hdirect
              subst hdirect
              obtain ⟨h1, h2, h3⟩ := mem_directDeps root imports x hx
              exact ⟨h2, root, imports, Visited.root, himp, h1, h3⟩
          · intro name sub hm hsk hsub x hx
            obtain ⟨h1, d, imports, hv, hb, hmem, hp⟩ := ih _ sub hsub x hx
            exact ⟨h1, d, imports,
              (Visited.sub root name ents Visited.root hents hm hsk).vtrans hv, hb, hmem, hp⟩

/-- Witness of C8 as amended: the root `github.com/a/b` returned in `selfImportEnv` is
among the imports of a visited directory. -/
theorem walker_members_witness :
    (∀ l x, x ∈ selfImportEnv.mapRange l → x ∈ l) ∧
    depsToVendorForPackage 2 selfImportEnv "/go" () "github.com/a/b"
      = some (.ok ["github.com/a/b", "github.com/a/b/util"]) ∧
    (pathIsNotStdlib "github.com/a/b" = true ∧
      ∃ d imports, Visited selfImportEnv "/go" () "github.com/a/b" d ∧
        selfImportEnv.buildImport d () = .ok imports ∧
        "github.com/a/b" ∈ imports ∧ stringsHasPrefix "github.com/a/b" d = false) :=
  ⟨fun _ _ h => h, by rfl,
    walker_members selfImportEnv (fun _ _ h => h) "/go" () 2 "github.com/a/b"
      ["github.com/a/b", "github.com/a/b/util"] (by rfl) "github.com/a/b" (by decide)⟩

/-- Claim C9, evaluated at the failing input: for the single-piece path `golang.org` the
code reads `parts[1]` of a one-element slice and panics, while the empty path and `fmt`
are returned unchanged. -/
theorem getBaseDVCS_golang_org_panics :
    getBaseDVCS "golang.org" = none ∧ getBaseDVCS "" = some "" ∧
    getBaseDVCS "fmt" = some "fmt" := by
  decide

/-- Counterexample to C10: `github.com/a/bc` is not a sub-path of `github.com/a/b`, the
walker returns it as a child of `github.com/a/b`, and the call for `github.com/a/b` skips
it: nothing is fetched or published for it and the saved manifest has no dependency. -/
theorem publish_skips_sibling_repository :
    isSubPath "github.com/a/bc" "github.com/a/b" = false ∧
    depsToVendorForPackage 2 siblingRepoEnv "/go" () "github.com/a/b"
      = some (.ok ["github.com/a/bc"]) ∧
    (GxPublishGoPackage siblingRepoEnv 3 startState "github.com/a/b").map (fun res => res.2.trace)
      = some [.goGet "github.com/a/b",
              .loadPackageFile "/go/src/github.com/a/b/package.json",
              .depsToVendor "github.com/a/b" (.ok ["github.com/a/bc"]),
              .savePackageFile (manifestOf "github.com/a/b" [])
                "/go/src/github.com/a/b/package.json",
              .publishPackage "github.com/a/b" "/go/src/github.com/a/b"
                (manifestOf "github.com/a/b" [])] :=
  ⟨by decide, by rfl, by decide⟩

/-- Claim C10 as amended: the loop skips exactly the children that have the grouped path
as a string prefix, that is, it behaves as publishing, in order, every child for which
`strings.HasPrefix(child, root)` is false and appending each returned handle; a child has
that prefix exactly when it is `root` followed by any string, which covers every sub-path
of `root`. -/
theorem publishDeps_skips_string_prefix :
    (∀ (W : Type) (publish : State W → String → Option (Outcome Dependency × State W))
        (root : String) (deps : List String) (pkg : Package) (s : State W),
      publishDeps publish root deps pkg s
        = publishEach publish (deps.filter (fun ch => !stringsHasPrefix ch root)) pkg s) ∧
    (∀ child root : String, stringsHasPrefix child root = true ↔ ∃ t : String, child = root ++ t) ∧
    (∀ child root : String, isSubPath child root = true → stringsHasPrefix child root = true) :=
  ⟨fun _ publish root deps pkg s => publishDeps_eq_publishEach publish root deps pkg s,
    stringsHasPrefix_iff, isSubPath_hasPrefix⟩

/-- Witness of C10 as amended: the sub-path `github.com/a/b/c` of `github.com/a/b` has the
root as a string prefix, so it is skipped. -/
theorem publishDeps_skips_string_prefix_witness :
    isSubPath "github.com/a/b/c" "github.com/a/b" = true ∧
    stringsHasPrefix "github.com/a/b/c" "github.com/a/b" = true :=
  ⟨by decide,
    publishDeps_skips_string_prefix.2.2 "github.com/a/b/c" "github.com/a/b" (by decide)⟩

end GxGo
